import Mathlib

/-!
# Verification of the graph-search engine of `sd23061_lab1.py`

This file gives a shallow embedding of the traversal engine of the
repository: the functions `breadth_first_search` and `depth_first_search`
(graph search over a directed adjacency structure with alphabetical
tie-breaking, per-step trace records, a level map and parent-pointer path
reconstruction), together with proofs of the specified properties.

Modelling conventions:
* node identifiers are an arbitrary linearly ordered type `α`
  (the Python program uses single-character strings);
* the Python `dict` mapping nodes to successor lists is an association
  list `List (α × List α)`; assignment is modelled by consing, and lookup
  by first match, which reproduces latest-assignment-wins semantics;
* the Python `set` is a `Finset`;
* the FIFO deque is a `List` whose head is the front of the queue;
  the LIFO stack is a `List` whose head is the top of the stack
  (Python stores the top at the end of the list; `stack[::-1]`, the
  top-first rendering used by the trace, is therefore our list as is);
* the `while` loops run on explicit fuel, and a proved fuel bound makes
  the top-level functions total.
-/

set_option maxHeartbeats 1600000
set_option linter.unusedSectionVars false

namespace LabSearch

variable {α : Type} {β : Type} [LinearOrder α]

/-- The adjacency structure: node identifier to ordered successor list
(the Python `dict` of lists). -/
abbrev Graph (α : Type) := List (α × List α)

/-- First-match association-list lookup (Python `dict` read). -/
def alookup [DecidableEq α] (m : List (α × β)) (a : α) : Option β :=
  (m.find? fun p => p.1 = a).map Prod.snd

/-- `graph.get(node, [])`: the successor list of a node, empty when the
node is not a key. -/
def successors (g : Graph α) (a : α) : List α :=
  match alookup g a with
  | some l => l
  | none => []

/-- Every node identifier mentioned in the graph (keys and successors). -/
def nodes (g : Graph α) : Finset α :=
  g.foldr (fun p acc => insert p.1 (p.2.toFinset ∪ acc)) ∅

instance : DecidableRel (fun a b : α => b ≤ a) :=
  fun a b => inferInstanceAs (Decidable (b ≤ a))

/-- Python `sorted(l)`: stable ascending sort. -/
def sortAsc (l : List α) : List α := List.insertionSort (· ≤ ·) l

/-- Python `sorted(l, reverse=True)`: stable descending sort. -/
def sortDesc (l : List α) : List α := List.insertionSort (fun a b => b ≤ a) l

/-- One row of the `process_steps` table: step index, expanded node
(`none` is the `'Start'` sentinel of step 0), its level, the frontier
snapshot as rendered, and the visited-set snapshot. -/
structure TraceStep (α : Type) where
  step : Nat
  expansion : Option α
  levelVal : Nat
  frontier : List α
  visitedSnap : Finset α

/-- The mutable state of either search loop.  `expansions` records the
nodes in the order they were dequeued/popped (the program counts them in
`expansion_order`; we also keep the list itself, so that statements about
expansion order can be made).  `expOrder` is `expansion_order`. -/
structure SearchState (α : Type) where
  frontier : List α
  visited : Finset α
  parent : List (α × Option α)
  level : List (α × Nat)
  steps : List (TraceStep α)
  expOrder : Nat
  expansions : List α

/-- `level[a]` read with default 0; the loops only ever read keys that
are present (every frontier node is visited, and visited nodes are keys
of the level map — proved below). -/
def levelD (L : List (α × Nat)) (a : α) : Nat := (alookup L a).getD 0

/-- The state after the initialization lines of either search
(`queue = deque([start])`, `visited = {start}`, `parent_map`, `level`,
and the step-0 trace row). -/
def initState (s : α) : SearchState α :=
  { frontier := [s]
    visited := {s}
    parent := [(s, none)]
    level := [(s, 0)]
    steps := [{ step := 0, expansion := none, levelVal := 0,
                frontier := [s], visitedSnap := {s} }]
    expOrder := 0
    expansions := [] }

/-- The `for neighbor in neighbors` loop shared by both searches: each
neighbor not yet visited is marked visited, given parent `c` and level
`lv` (= `level[current] + 1`, constant over the loop since `current` is
already a key), and added to the frontier by `push`. -/
def discover (push : List α → α → List α) (c : α) (lv : Nat) :
    List α → SearchState α → SearchState α
  | [], st => st
  | n :: ns, st =>
    if n ∈ st.visited then
      discover push c lv ns st
    else
      discover push c lv ns
        { st with visited := insert n st.visited,
                  parent := (n, some c) :: st.parent,
                  level := (n, lv) :: st.level,
                  frontier := push st.frontier n }

/-- `queue.append`: FIFO enqueue at the back. -/
def pushQ (l : List α) (a : α) : List α := l ++ [a]

/-- `stack.append`: LIFO push on top (our head). -/
def pushS (l : List α) (a : α) : List α := a :: l

/-- `current = queue.popleft()` / `current = stack.pop()` together with
`expansion_order += 1`: the frontier head is removed and the expansion
recorded. -/
def popState (current : α) (rest : List α) (st : SearchState α) : SearchState α :=
  { st with frontier := rest, expOrder := st.expOrder + 1,
            expansions := st.expansions ++ [current] }

/-- The body of the BFS loop after the goal check: sort the successors
ascending, discover the fresh ones in that order appending to the queue,
and append the trace row, whose frontier field is
`new_frontier + sorted(list(queue))` exactly as in the source
(`new_frontier` is the queue right after the dequeue). -/
def bfsExpand (g : Graph α) (current : α) (st1 : SearchState α) : SearchState α :=
  let neighbors := sortAsc (successors g current)
  let newFrontier := st1.frontier
  let currLevel := levelD st1.level current
  let st2 := discover pushQ current (currLevel + 1) neighbors st1
  { st2 with steps := st2.steps ++
      [{ step := st1.expOrder, expansion := some current, levelVal := currLevel,
         frontier := newFrontier ++ sortAsc st2.frontier,
         visitedSnap := st2.visited }] }

/-- The body of the DFS loop after the goal check: sort the successors
descending so the alphabetically first ends on top, push the fresh ones,
and append the trace row, whose frontier field is the stack rendered
top-first (`stack[::-1]`). -/
def dfsExpand (g : Graph α) (current : α) (st1 : SearchState α) : SearchState α :=
  let neighbors := sortDesc (successors g current)
  let currLevel := levelD st1.level current
  let st2 := discover pushS current (currLevel + 1) neighbors st1
  { st2 with steps := st2.steps ++
      [{ step := st1.expOrder, expansion := some current, levelVal := currLevel,
         frontier := st2.frontier,
         visitedSnap := st2.visited }] }

/-- The `while queue:` loop of `breadth_first_search`.  `last` is the
value of the Python variable `current_node` before the iteration (`none`
before the first iteration); the loop returns its final value together
with the final state.  `none` overall means the fuel ran out (it never
does for the fuel bound proved below). -/
def bfsLoop (g : Graph α) (goal : α) :
    Nat → Option α → SearchState α → Option (Option α × SearchState α)
  | 0, _, _ => none
  | fuel + 1, last, st =>
    match st.frontier with
    | [] => some (last, st)
    | current :: rest =>
      let st1 := popState current rest st
      if current = goal then some (some current, st1)
      else bfsLoop g goal fuel (some current) (bfsExpand g current st1)

/-- The `while stack:` loop of `depth_first_search`. -/
def dfsLoop (g : Graph α) (goal : α) :
    Nat → Option α → SearchState α → Option (Option α × SearchState α)
  | 0, _, _ => none
  | fuel + 1, last, st =>
    match st.frontier with
    | [] => some (last, st)
    | current :: rest =>
      let st1 := popState current rest st
      if current = goal then some (some current, st1)
      else dfsLoop g goal fuel (some current) (dfsExpand g current st1)

/-- The size of the unvisited part of the graph plus the frontier: a
strictly decreasing measure of either loop. -/
def searchMeasure (g : Graph α) (st : SearchState α) : Nat :=
  (nodes g \ st.visited).card + st.frontier.length

/-- Fuel that is proved sufficient for either loop from the initial
state. -/
def searchFuel (g : Graph α) (_s : α) : Nat := (nodes g).card + 2

theorem nodes_cons (p : α × List α) (g : Graph α) :
    nodes (p :: g) = insert p.1 (p.2.toFinset ∪ nodes g) := rfl

theorem mem_nodes_of_succ {g : Graph α} {c a : α}
    (h : a ∈ successors g c) : a ∈ nodes g := by
  induction g with
  | nil => simp [successors, alookup] at h
  | cons p g ih =>
    rw [nodes_cons]
    by_cases hpc : p.1 = c
    · have hs : successors (p :: g) c = p.2 := by
        simp [successors, alookup, List.find?, hpc]
      rw [hs] at h
      simp [List.mem_toFinset.2 h]
    · have hs : successors (p :: g) c = successors g c := by
        simp [successors, alookup, List.find?, hpc]
      rw [hs] at h
      simp [ih h]

theorem sortAsc_mem {l : List α} {a : α} : a ∈ sortAsc l ↔ a ∈ l :=
  (List.perm_insertionSort (· ≤ ·) l).mem_iff

theorem sortDesc_mem {l : List α} {a : α} : a ∈ sortDesc l ↔ a ∈ l :=
  (List.perm_insertionSort (fun a b => b ≤ a) l).mem_iff

theorem discover_measure {g : Graph α} (push : List α → α → List α)
    (hpush : ∀ l a, (push l a).length = l.length + 1) (c : α) (lv : Nat) :
    ∀ (ns : List α) (st : SearchState α), (∀ n ∈ ns, n ∈ nodes g) →
      searchMeasure g (discover push c lv ns st) = searchMeasure g st := by
  intro ns
  induction ns with
  | nil => intro st _; rfl
  | cons n ns ih =>
    intro st hns
    by_cases hv : n ∈ st.visited
    · rw [discover, if_pos hv]
      exact ih st fun m hm => hns m (List.mem_cons_of_mem _ hm)
    · rw [discover, if_neg hv]
      rw [ih _ fun m hm => hns m (List.mem_cons_of_mem _ hm)]
      show (nodes g \ insert n st.visited).card + (push st.frontier n).length =
        (nodes g \ st.visited).card + st.frontier.length
      rw [hpush]
      have hmem : n ∈ nodes g \ st.visited :=
        Finset.mem_sdiff.2 ⟨hns n (List.mem_cons_self n ns), hv⟩
      have : nodes g \ insert n st.visited = (nodes g \ st.visited).erase n := by
        ext x
        simp [Finset.mem_sdiff, Finset.mem_erase, Finset.mem_insert]
        tauto
      rw [this]
      have := Finset.card_erase_add_one hmem
      omega

theorem bfsExpand_measure (g : Graph α) (current : α) (st1 : SearchState α) :
    searchMeasure g (bfsExpand g current st1) = searchMeasure g st1 := by
  show searchMeasure g { discover pushQ current _ _ st1 with steps := _ } = _
  have h1 : ∀ st : SearchState α, ∀ t, searchMeasure g { st with steps := t } =
      searchMeasure g st := fun _ _ => rfl
  rw [h1]
  exact discover_measure pushQ (by intro l a; simp [pushQ]) _ _ _ st1
    (fun n hn => mem_nodes_of_succ (sortAsc_mem.1 hn))

theorem dfsExpand_measure (g : Graph α) (current : α) (st1 : SearchState α) :
    searchMeasure g (dfsExpand g current st1) = searchMeasure g st1 := by
  show searchMeasure g { discover pushS current _ _ st1 with steps := _ } = _
  have h1 : ∀ st : SearchState α, ∀ t, searchMeasure g { st with steps := t } =
      searchMeasure g st := fun _ _ => rfl
  rw [h1]
  exact discover_measure pushS (by intro l a; simp [pushS]) _ _ _ st1
    (fun n hn => mem_nodes_of_succ (sortDesc_mem.1 hn))

theorem bfsLoop_isSome (g : Graph α) (goal : α) :
    ∀ (fuel : Nat) (last : Option α) (st : SearchState α),
      searchMeasure g st < fuel → (bfsLoop g goal fuel last st).isSome := by
  intro fuel
  induction fuel with
  | zero => intro _ _ h; omega
  | succ fuel ih =>
    intro last st hm
    rw [bfsLoop]
    cases hfr : st.frontier with
    | nil => rfl
    | cons current rest =>
      by_cases hg : current = goal
      · simp [hg]
      · simp only [hg, if_false]
        apply ih
        rw [bfsExpand_measure]
        have : searchMeasure g (popState current rest st) + 1 = searchMeasure g st := by
          show (nodes g \ st.visited).card + rest.length + 1 =
            (nodes g \ st.visited).card + st.frontier.length
          rw [hfr]; simp; omega
        omega

theorem dfsLoop_isSome (g : Graph α) (goal : α) :
    ∀ (fuel : Nat) (last : Option α) (st : SearchState α),
      searchMeasure g st < fuel → (dfsLoop g goal fuel last st).isSome := by
  intro fuel
  induction fuel with
  | zero => intro _ _ h; omega
  | succ fuel ih =>
    intro last st hm
    rw [dfsLoop]
    cases hfr : st.frontier with
    | nil => rfl
    | cons current rest =>
      by_cases hg : current = goal
      · simp [hg]
      · simp only [hg, if_false]
        apply ih
        rw [dfsExpand_measure]
        have : searchMeasure g (popState current rest st) + 1 = searchMeasure g st := by
          show (nodes g \ st.visited).card + rest.length + 1 =
            (nodes g \ st.visited).card + st.frontier.length
          rw [hfr]; simp; omega
        omega

theorem initMeasure_lt (g : Graph α) (s : α) :
    searchMeasure g (initState s) < searchFuel g s := by
  show (nodes g \ {s}).card + 1 < (nodes g).card + 2
  have := Finset.card_le_card (Finset.sdiff_subset (s := nodes g) (t := {s}))
  omega

theorem bfsLoop_run_isSome (g : Graph α) (s goal : α) :
    (bfsLoop g goal (searchFuel g s) none (initState s)).isSome :=
  bfsLoop_isSome g goal _ none (initState s) (initMeasure_lt g s)

theorem dfsLoop_run_isSome (g : Graph α) (s goal : α) :
    (dfsLoop g goal (searchFuel g s) none (initState s)).isSome :=
  dfsLoop_isSome g goal _ none (initState s) (initMeasure_lt g s)

/-- The whole BFS loop run from the initial state: final `current_node`
value and final state. -/
def bfsRun (g : Graph α) (s goal : α) : Option α × SearchState α :=
  (bfsLoop g goal (searchFuel g s) none (initState s)).get (bfsLoop_run_isSome g s goal)

/-- The whole DFS loop run from the initial state. -/
def dfsRun (g : Graph α) (s goal : α) : Option α × SearchState α :=
  (dfsLoop g goal (searchFuel g s) none (initState s)).get (dfsLoop_run_isSome g s goal)

/-- The `while curr is not None:` walk of parent pointers
(`curr = parent_map.get(curr)`: an absent key acts like a `None` parent).
The fuel `pm.length + 1` used below is proved sufficient. -/
def walk (pm : List (α × Option α)) : Nat → Option α → List α
  | _, none => []
  | 0, some _ => []
  | fuel + 1, some c => c :: walk pm fuel (alookup pm c).join

/-- Path reconstruction: walk the parent pointers from the goal, then
reverse. -/
def reconstructPath (pm : List (α × Option α)) (goal : α) : List α :=
  (walk pm (pm.length + 1) (some goal)).reverse

/-- `breadth_first_search(graph, start_node, goal_node)`: returns
`(path, process_steps, level)`. -/
def breadth_first_search (g : Graph α) (s goal : α) :
    List α × List (TraceStep α) × List (α × Nat) :=
  let r := bfsRun g s goal
  (if r.1 = some goal then reconstructPath r.2.parent goal else [],
   r.2.steps, r.2.level)

/-- `depth_first_search(graph, start_node, goal_node)`: returns
`(path, process_steps, level)`. -/
def depth_first_search (g : Graph α) (s goal : α) :
    List α × List (TraceStep α) × List (α × Nat) :=
  let r := dfsRun g s goal
  (if r.1 = some goal then reconstructPath r.2.parent goal else [],
   r.2.steps, r.2.level)

/-- The fixed 8-node directed graph of the program. -/
def GRAPH : Graph Char :=
  [('A', ['D', 'B']), ('B', ['C', 'E', 'G']), ('C', ['A']), ('D', ['C', 'A']),
   ('E', ['H']), ('F', []), ('G', ['F']), ('H', ['G', 'F'])]

/-- Nodes reachable from `s` in at most `k` edges (the union of the set
with the successors of all its members, iterated `k` times from `{s}`). -/
def reachN (g : Graph α) (s : α) : Nat → Finset α
  | 0 => {s}
  | k + 1 => reachN g s k ∪ (reachN g s k).biUnion fun a => (successors g a).toFinset

/-- The set of nodes reachable from `s` (the bounded reachability
iteration saturates within `card (insert s (nodes g))` rounds; proved
below). -/
def reachableSet (g : Graph α) (s : α) : Finset α :=
  reachN g s (insert s (nodes g)).card

/-- `d` is the minimum edge count of a path from `s` to `a`. -/
def IsDistance (g : Graph α) (s a : α) (d : Nat) : Prop :=
  a ∈ reachN g s d ∧ ∀ j < d, a ∉ reachN g s j

instance (g : Graph α) (s a : α) (d : Nat) : Decidable (IsDistance g s a d) :=
  inferInstanceAs (Decidable (a ∈ reachN g s d ∧ ∀ j < d, a ∉ reachN g s j))

/-- `X` occurs strictly before (some occurrence of) `Y` in a list. -/
def Before (X Y : α) (l : List α) : Prop :=
  ∃ p q r, l = p ++ X :: q ++ Y :: r

/-! ## Association-list lookup lemmas -/

theorem alookup_nil (a : α) : alookup ([] : List (α × β)) a = none := rfl

theorem alookup_cons (k : α) (v : β) (m : List (α × β)) (a : α) :
    alookup ((k, v) :: m) a = if k = a then some v else alookup m a := by
  by_cases h : k = a <;> simp [alookup, List.find?, h]

theorem alookup_keyMap (L : List α) (v : β) (m : List (α × β)) (a : α) :
    alookup ((L.map fun n => (n, v)) ++ m) a =
      if a ∈ L then some v else alookup m a := by
  induction L with
  | nil => simp
  | cons n t ih =>
    simp only [List.map_cons, List.cons_append, alookup_cons, ih, List.mem_cons]
    by_cases hn : n = a
    · simp [hn]
    · have : ¬ a = n := fun h => hn h.symm
      simp [hn, this]

/-! ## `freshList`: the nodes actually discovered by one `discover` pass -/

/-- The sublist of `ns` kept by the `neighbor not in visited` filter,
accounting for nodes becoming visited as the loop runs (duplicates in
`ns` are kept only at their first occurrence). -/
def freshList (v : Finset α) : List α → List α
  | [] => []
  | n :: ns => if n ∈ v then freshList v ns else n :: freshList (insert n v) ns

theorem freshList_sublist (v : Finset α) : ∀ ns : List α, List.Sublist (freshList v ns) ns := by
  intro ns
  induction ns generalizing v with
  | nil => simp [freshList]
  | cons n t ih =>
    rw [freshList]
    by_cases hv : n ∈ v
    · simp only [if_pos hv]
      exact (ih v).cons n
    · simp only [if_neg hv]
      exact (ih (insert n v)).cons₂ n

theorem mem_of_mem_freshList {v : Finset α} {ns : List α} {a : α}
    (h : a ∈ freshList v ns) : a ∈ ns :=
  (freshList_sublist v ns).subset h

theorem not_vis_of_mem_freshList {v : Finset α} {ns : List α} {a : α} :
    a ∈ freshList v ns → a ∉ v := by
  induction ns generalizing v with
  | nil => simp [freshList]
  | cons n t ih =>
    rw [freshList]
    by_cases hv : n ∈ v
    · simp only [if_pos hv]
      exact ih
    · simp only [if_neg hv, List.mem_cons]
      rintro (rfl | h)
      · exact hv
      · have := ih h
        intro hav
        exact this (Finset.mem_insert_of_mem hav)

theorem mem_freshList {v : Finset α} {ns : List α} {a : α}
    (hm : a ∈ ns) (hv : a ∉ v) : a ∈ freshList v ns := by
  induction ns generalizing v with
  | nil => simp at hm
  | cons n t ih =>
    rw [freshList]
    rcases List.mem_cons.1 hm with rfl | hmt
    · simp [if_neg hv]
    · by_cases hnv : n ∈ v
      · simp only [if_pos hnv]
        exact ih hmt hv
      · simp only [if_neg hnv, List.mem_cons]
        by_cases han : a = n
        · exact Or.inl han
        · exact Or.inr (ih hmt (by simp [Finset.mem_insert, han, hv]))

theorem freshList_nodup (v : Finset α) : ∀ ns : List α, (freshList v ns).Nodup := by
  intro ns
  induction ns generalizing v with
  | nil => simp [freshList]
  | cons n t ih =>
    rw [freshList]
    by_cases hv : n ∈ v
    · simp only [if_pos hv]
      exact ih v
    · simp only [if_neg hv, List.nodup_cons]
      refine ⟨fun hmem => ?_, ih (insert n v)⟩
      exact not_vis_of_mem_freshList hmem (Finset.mem_insert_self n v)

/-! ## Characterization of `discover` -/

theorem discover_spec (push : List α → α → List α) (c : α) (lv : Nat) :
    ∀ (ns : List α) (st : SearchState α),
      discover push c lv ns st =
        { frontier := (freshList st.visited ns).foldl push st.frontier,
          visited := st.visited ∪ (freshList st.visited ns).toFinset,
          parent := ((freshList st.visited ns).reverse.map fun n => (n, some c)) ++ st.parent,
          level := ((freshList st.visited ns).reverse.map fun n => (n, lv)) ++ st.level,
          steps := st.steps, expOrder := st.expOrder,
          expansions := st.expansions } := by
  intro ns
  induction ns with
  | nil => intro st; cases st; simp [discover, freshList]
  | cons n t ih =>
    intro st
    rw [discover, freshList]
    by_cases hv : n ∈ st.visited
    · simp only [if_pos hv]
      exact ih st
    · simp only [if_neg hv]
      rw [ih]
      have hvis : st.visited ∪ (n :: freshList (insert n st.visited) t).toFinset
          = insert n st.visited ∪ (freshList (insert n st.visited) t).toFinset := by
        ext x
        simp only [Finset.mem_union, Finset.mem_insert, List.toFinset_cons,
          List.mem_toFinset]
        tauto
      rw [hvis]
      simp

theorem foldl_pushQ (init : List α) (L : List α) :
    L.foldl pushQ init = init ++ L := by
  induction L generalizing init with
  | nil => simp
  | cons a t ih => simp [pushQ, ih]

theorem foldl_pushS (init : List α) (L : List α) :
    L.foldl pushS init = L.reverse ++ init := by
  induction L generalizing init with
  | nil => simp
  | cons a t ih => simp [pushS, ih]

/-! ## `Before`: order of occurrences in a list -/

theorem Before.append_right {X Y : α} {l : List α} (t : List α)
    (h : Before X Y l) : Before X Y (l ++ t) := by
  obtain ⟨p, q, r, rfl⟩ := h
  exact ⟨p, q, r ++ t, by simp⟩

theorem Before.append_left {X Y : α} {l : List α} (t : List α)
    (h : Before X Y l) : Before X Y (t ++ l) := by
  obtain ⟨p, q, r, rfl⟩ := h
  exact ⟨t ++ p, q, r, by simp⟩

theorem Before.cons {X Y a : α} {l : List α} (h : Before X Y l) :
    Before X Y (a :: l) :=
  h.append_left [a]

theorem before_head_of_mem {X Y : α} {l : List α} (h : Y ∈ l) :
    Before X Y (X :: l) := by
  obtain ⟨q, r, rfl⟩ := List.append_of_mem h
  exact ⟨[], q, r, by simp⟩

theorem before_of_pairwise {R : α → α → Prop} {l : List α} {X Y : α}
    (hp : l.Pairwise R) (hX : X ∈ l) (hY : Y ∈ l) (hne : X ≠ Y)
    (hnR : ¬ R Y X) : Before X Y l := by
  induction l with
  | nil => simp at hX
  | cons a t ih =>
    rcases List.mem_cons.1 hX with rfl | hXt
    · exact before_head_of_mem ((List.mem_cons.1 hY).resolve_left fun h => hne h.symm)
    · rcases List.mem_cons.1 hY with rfl | hYt
      · exact absurd ((List.pairwise_cons.1 hp).1 X hXt) hnR
      · exact ((ih (List.pairwise_cons.1 hp).2 hXt hYt)).cons

theorem before_mem_left {X Y : α} {l : List α} (h : Before X Y l) : X ∈ l := by
  obtain ⟨p, q, r, rfl⟩ := h
  simp

theorem before_mem_right {X Y : α} {l : List α} (h : Before X Y l) : Y ∈ l := by
  obtain ⟨p, q, r, rfl⟩ := h
  simp

/-! ## Sortedness of the tie-break orders -/

instance : IsTotal α (fun a b : α => b ≤ a) := ⟨fun a b => le_total b a⟩

instance : IsTrans α (fun a b : α => b ≤ a) := ⟨fun _ _ _ hab hbc => le_trans hbc hab⟩

theorem sortAsc_pairwise (l : List α) : (sortAsc l).Pairwise (· ≤ ·) :=
  List.sorted_insertionSort (· ≤ ·) l

theorem sortDesc_pairwise (l : List α) : (sortDesc l).Pairwise (fun a b => b ≤ a) :=
  List.sorted_insertionSort (fun a b => b ≤ a) l

/-! ## Reachability -/

theorem reachN_zero (g : Graph α) (s : α) : reachN g s 0 = {s} := rfl

theorem reachN_succ (g : Graph α) (s : α) (k : Nat) :
    reachN g s (k + 1) =
      reachN g s k ∪ (reachN g s k).biUnion fun a => (successors g a).toFinset := rfl

theorem reachN_subset_succ (g : Graph α) (s : α) (k : Nat) :
    reachN g s k ⊆ reachN g s (k + 1) := by
  rw [reachN_succ]
  exact Finset.subset_union_left

theorem reachN_mono (g : Graph α) (s : α) {j k : Nat} (h : j ≤ k) :
    reachN g s j ⊆ reachN g s k := by
  induction k with
  | zero => cases Nat.le_zero.1 h; exact Finset.Subset.refl _
  | succ k ih =>
    rcases Nat.lt_or_ge j (k + 1) with hlt | hge
    · exact (ih (Nat.lt_succ_iff.1 hlt)).trans (reachN_subset_succ g s k)
    · cases Nat.le_antisymm h hge
      exact Finset.Subset.refl _

theorem mem_reachN_succ {g : Graph α} {s a b : α} {k : Nat}
    (ha : a ∈ reachN g s k) (hb : b ∈ successors g a) :
    b ∈ reachN g s (k + 1) := by
  rw [reachN_succ]
  exact Finset.mem_union_right _ (Finset.mem_biUnion.2 ⟨a, ha, List.mem_toFinset.2 hb⟩)

theorem mem_reachN_succ_elim {g : Graph α} {s b : α} {k : Nat}
    (h : b ∈ reachN g s (k + 1)) :
    b ∈ reachN g s k ∨ ∃ a ∈ reachN g s k, b ∈ successors g a := by
  rw [reachN_succ] at h
  rcases Finset.mem_union.1 h with h | h
  · exact Or.inl h
  · obtain ⟨a, ha, hb⟩ := Finset.mem_biUnion.1 h
    exact Or.inr ⟨a, ha, List.mem_toFinset.1 hb⟩

theorem isDistance_of_mem_reachN {g : Graph α} {s a : α} {k : Nat}
    (h : a ∈ reachN g s k) : ∃ d ≤ k, IsDistance g s a d := by
  have hex : ∃ j, a ∈ reachN g s j := ⟨k, h⟩
  refine ⟨Nat.find hex, Nat.find_le h, Nat.find_spec hex, fun j hj => Nat.find_min hex hj⟩

theorem reachN_subset_nodes (g : Graph α) (s : α) (k : Nat) :
    reachN g s k ⊆ insert s (nodes g) := by
  induction k with
  | zero => simp [reachN_zero]
  | succ k ih =>
    rw [reachN_succ]
    intro x hx
    rcases Finset.mem_union.1 hx with hx | hx
    · exact ih hx
    · obtain ⟨a, _, hxa⟩ := Finset.mem_biUnion.1 hx
      exact Finset.mem_insert_of_mem (mem_nodes_of_succ (List.mem_toFinset.1 hxa))

theorem reachN_stab {g : Graph α} {s : α} {k : Nat}
    (h : reachN g s (k + 1) = reachN g s k) :
    ∀ j, reachN g s (k + j) = reachN g s k := by
  intro j
  induction j with
  | zero => rfl
  | succ j ih =>
    have : k + (j + 1) = (k + j) + 1 := rfl
    rw [this, reachN_succ, ih, ← reachN_succ, h]

theorem reachN_card_grow (g : Graph α) (s : α) :
    ∀ k, (∀ j < k, reachN g s (j + 1) ≠ reachN g s j) →
      k + 1 ≤ (reachN g s k).card := by
  intro k
  induction k with
  | zero => intro _; simp [reachN_zero]
  | succ k ih =>
    intro h
    have hk := ih fun j hj => h j (Nat.lt_succ_of_lt hj)
    have hne : reachN g s (k + 1) ≠ reachN g s k := h k (Nat.lt_succ_self k)
    have hss : reachN g s k ⊂ reachN g s (k + 1) :=
      Finset.ssubset_iff_subset_ne.2 ⟨reachN_subset_succ g s k, fun he => hne he.symm⟩
    have := Finset.card_lt_card hss
    omega

theorem exists_reach_stab (g : Graph α) (s : α) :
    ∃ k < (insert s (nodes g)).card, reachN g s (k + 1) = reachN g s k := by
  by_contra hcon
  push_neg at hcon
  set N := (insert s (nodes g)).card with hN
  have hgrow := reachN_card_grow g s N fun j hj => hcon j hj
  have hsub := Finset.card_le_card (reachN_subset_nodes g s N)
  omega

theorem mem_reachableSet_iff {g : Graph α} {s a : α} :
    a ∈ reachableSet g s ↔ ∃ k, a ∈ reachN g s k := by
  constructor
  · intro h
    exact ⟨(insert s (nodes g)).card, h⟩
  · rintro ⟨k, hk⟩
    obtain ⟨k0, hk0N, hstab⟩ := exists_reach_stab g s
    rcases Nat.le_total k (insert s (nodes g)).card with hle | hge
    · exact reachN_mono g s hle hk
    · have h1 : reachN g s k = reachN g s k0 := by
        have : k = k0 + (k - k0) := by omega
        rw [this]
        exact reachN_stab hstab _
      have h2 : reachN g s k0 ⊆ reachableSet g s :=
        reachN_mono g s (Nat.le_of_lt hk0N)
      rw [h1] at hk
      exact h2 hk

/-! ## The invariant shared by both search loops -/

/-- Facts holding at every loop boundary of either search: the visited
set, the key set of the parent map and the key set of the level map all
agree; parent edges are graph edges with levels incrementing; the start
has parent `None` and level 0; the frontier and the expanded list
partition the visited set without duplicates; levels witness
reachability and are bounded by the visited count; and the trace rows
are numbered `0, 1, 2, …`, list the expansions in order and carry
monotone visited snapshots, the last one being the current visited set. -/
structure InvM (g : Graph α) (s : α) (st : SearchState α) : Prop where
  pk : ∀ a, (alookup st.parent a).isSome ↔ a ∈ st.visited
  lk : ∀ a, (alookup st.level a).isSome ↔ a ∈ st.visited
  pstart : ∀ a, alookup st.parent a = some none → a = s
  pedge : ∀ a p, alookup st.parent a = some (some p) →
    a ∈ successors g p ∧ ∃ lp, alookup st.level p = some lp ∧
      alookup st.level a = some (lp + 1)
  lstart : alookup st.level s = some 0
  svis : s ∈ st.visited
  fvis : ∀ a ∈ st.frontier, a ∈ st.visited
  evis : ∀ a ∈ st.expansions, a ∈ st.visited
  nd : (st.expansions ++ st.frontier).Nodup
  visEF : ∀ a ∈ st.visited, a ∈ st.expansions ∨ a ∈ st.frontier
  lreach : ∀ a la, alookup st.level a = some la → a ∈ reachN g s la
  lcard : ∀ a la, alookup st.level a = some la → la < st.visited.card
  vnodes : st.visited ⊆ insert s (nodes g)
  plen : st.visited.card ≤ st.parent.length
  eord : st.expOrder = st.expansions.length
  smap : st.steps.map (fun t => t.expansion) = none :: st.expansions.map some
  snum : st.steps.map (fun t => t.step) = List.range st.steps.length
  schain : List.Chain' (fun t u => t.visitedSnap ⊆ u.visitedSnap) st.steps
  slast : ∃ t, st.steps.getLast? = some t ∧ t.visitedSnap = st.visited

theorem InvM_init (g : Graph α) (s : α) : InvM g s (initState s) := by
  refine ⟨?_, ?_, ?_, ?_, ?_, ?_, ?_, ?_, ?_, ?_, ?_, ?_, ?_, ?_, ?_, ?_, ?_, ?_, ?_⟩
  · intro a
    rcases eq_or_ne a s with rfl | h
    · simp [initState, alookup_cons]
    · simp [initState, alookup_cons, alookup_nil, h, Ne.symm h]
  · intro a
    rcases eq_or_ne a s with rfl | h
    · simp [initState, alookup_cons]
    · simp [initState, alookup_cons, alookup_nil, h, Ne.symm h]
  · intro a ha
    rcases eq_or_ne a s with rfl | h
    · rfl
    · rw [show (initState s).parent = [(s, none)] from rfl, alookup_cons,
        if_neg (Ne.symm h), alookup_nil] at ha
      exact absurd ha (by simp)
  · intro a p ha
    rw [show (initState s).parent = [(s, none)] from rfl, alookup_cons] at ha
    rcases eq_or_ne s a with h | h
    · rw [if_pos h] at ha
      exact absurd ha (by simp)
    · rw [if_neg h, alookup_nil] at ha
      exact absurd ha (by simp)
  · simp [initState, alookup_cons]
  · simp [initState]
  · intro a ha
    simp only [initState, List.mem_singleton] at ha
    simp [initState, ha]
  · intro a ha
    simp [initState] at ha
  · simp [initState]
  · intro a ha
    simp only [initState, Finset.mem_singleton] at ha
    simp [initState, ha]
  · intro a la hla
    rw [show (initState s).level = [(s, 0)] from rfl, alookup_cons] at hla
    rcases eq_or_ne s a with h | h
    · rw [if_pos h] at hla
      obtain rfl : (0 : Nat) = la := by injection hla
      rw [← h, reachN_zero]
      exact Finset.mem_singleton_self s
    · rw [if_neg h, alookup_nil] at hla
      exact absurd hla (by simp)
  · intro a la hla
    rw [show (initState s).level = [(s, 0)] from rfl, alookup_cons] at hla
    rcases eq_or_ne s a with h | h
    · rw [if_pos h] at hla
      obtain rfl : (0 : Nat) = la := by injection hla
      simp [initState]
    · rw [if_neg h, alookup_nil] at hla
      exact absurd hla (by simp)
  · intro x hx
    simp only [initState, Finset.mem_singleton] at hx
    simp [hx]
  · simp [initState]
  · simp [initState]
  · simp [initState]
  · simp [initState, List.range_succ]
  · simp [initState]
  · refine ⟨{ step := 0, expansion := none, levelVal := 0, frontier := [s], visitedSnap := {s} }, ?_, rfl⟩
    simp [initState]

theorem InvM_step (g : Graph α) (s current : α) (rest ns : List α)
    (st st3 : SearchState α) (h : InvM g s st)
    (hfr : st.frontier = current :: rest)
    (hns : ∀ n ∈ ns, n ∈ successors g current)
    (F : List α) (hF : F = freshList st.visited ns)
    (lc : Nat) (hlc : alookup st.level current = some lc)
    (h3fr : st3.frontier.Perm (rest ++ F))
    (h3vis : st3.visited = st.visited ∪ F.toFinset)
    (h3par : st3.parent = (F.reverse.map fun n => (n, some current)) ++ st.parent)
    (h3lev : st3.level = (F.reverse.map fun n => (n, lc + 1)) ++ st.level)
    (h3steps : ∃ lvRow frRow, st3.steps = st.steps ++
      [{ step := st.expOrder + 1, expansion := some current, levelVal := lvRow,
         frontier := frRow, visitedSnap := st3.visited }])
    (h3eo : st3.expOrder = st.expOrder + 1)
    (h3exp : st3.expansions = st.expansions ++ [current]) :
    InvM g s st3 := by
  have hcv : current ∈ st.visited :=
    h.fvis current (by rw [hfr]; exact List.mem_cons_self _ _)
  have hFfresh : ∀ a ∈ F, a ∉ st.visited := by
    rw [hF]; exact fun a ha => not_vis_of_mem_freshList ha
  have hFsucc : ∀ a ∈ F, a ∈ successors g current := by
    rw [hF]; exact fun a ha => hns a (mem_of_mem_freshList ha)
  have hFnd : F.Nodup := by rw [hF]; exact freshList_nodup _ _
  have hcF : current ∉ F := fun hc => hFfresh current hc hcv
  have hpar : ∀ a, alookup st3.parent a =
      if a ∈ F then some (some current) else alookup st.parent a := by
    intro a
    rw [h3par, alookup_keyMap]
    simp [List.mem_reverse]
  have hlev : ∀ a, alookup st3.level a =
      if a ∈ F then some (lc + 1) else alookup st.level a := by
    intro a
    rw [h3lev, alookup_keyMap]
    simp [List.mem_reverse]
  have hvis : ∀ a, a ∈ st3.visited ↔ a ∈ st.visited ∨ a ∈ F := by
    intro a; rw [h3vis]; simp
  refine ⟨?_, ?_, ?_, ?_, ?_, ?_, ?_, ?_, ?_, ?_, ?_, ?_, ?_, ?_, ?_, ?_, ?_, ?_, ?_⟩
  · intro a
    rw [hpar a]
    by_cases haF : a ∈ F
    · rw [if_pos haF]
      constructor
      · intro _; exact (hvis a).2 (Or.inr haF)
      · intro _; rfl
    · rw [if_neg haF, h.pk a]
      constructor
      · intro hv; exact (hvis a).2 (Or.inl hv)
      · intro hv
        rcases (hvis a).1 hv with hv | hf
        · exact hv
        · exact absurd hf haF
  · intro a
    rw [hlev a]
    by_cases haF : a ∈ F
    · rw [if_pos haF]
      constructor
      · intro _; exact (hvis a).2 (Or.inr haF)
      · intro _; rfl
    · rw [if_neg haF, h.lk a]
      constructor
      · intro hv; exact (hvis a).2 (Or.inl hv)
      · intro hv
        rcases (hvis a).1 hv with hv | hf
        · exact hv
        · exact absurd hf haF
  · intro a hpa
    rw [hpar a] at hpa
    by_cases haF : a ∈ F
    · rw [if_pos haF] at hpa
      exact absurd hpa (by simp)
    · rw [if_neg haF] at hpa
      exact h.pstart a hpa
  · intro a p hpa
    rw [hpar a] at hpa
    by_cases haF : a ∈ F
    · rw [if_pos haF] at hpa
      obtain rfl : current = p := by
        have h1 : (some current : Option α) = some p := by injection hpa
        injection h1
      refine ⟨hFsucc a haF, lc, ?_, ?_⟩
      · rw [hlev current, if_neg hcF]; exact hlc
      · rw [hlev a, if_pos haF]
    · rw [if_neg haF] at hpa
      obtain ⟨hsucc, lp, hlp, hla⟩ := h.pedge a p hpa
      have hpvis : p ∈ st.visited := (h.lk p).1 (by rw [hlp]; rfl)
      have hpF : p ∉ F := fun hc => hFfresh p hc hpvis
      refine ⟨hsucc, lp, ?_, ?_⟩
      · rw [hlev p, if_neg hpF]; exact hlp
      · rw [hlev a, if_neg haF]; exact hla
  · have hsF : s ∉ F := fun hc => hFfresh s hc h.svis
    rw [hlev s, if_neg hsF]; exact h.lstart
  · exact (hvis s).2 (Or.inl h.svis)
  · intro a ha
    rw [h3fr.mem_iff] at ha
    rcases List.mem_append.1 ha with hr | haF
    · have : a ∈ st.frontier := by rw [hfr]; exact List.mem_cons_of_mem _ hr
      exact (hvis a).2 (Or.inl (h.fvis a this))
    · exact (hvis a).2 (Or.inr haF)
  · intro a ha
    rw [h3exp] at ha
    rcases List.mem_append.1 ha with he | hc
    · exact (hvis a).2 (Or.inl (h.evis a he))
    · rw [List.mem_singleton] at hc
      subst hc
      exact (hvis a).2 (Or.inl hcv)
  · have hperm : (st3.expansions ++ st3.frontier).Perm
        ((st.expansions ++ st.frontier) ++ F) := by
      rw [h3exp, hfr]
      have hp1 : (st.expansions ++ [current] ++ st3.frontier).Perm
          (st.expansions ++ [current] ++ (rest ++ F)) :=
        List.Perm.append_left _ h3fr
      have hp2 : st.expansions ++ [current] ++ (rest ++ F)
          = (st.expansions ++ current :: rest) ++ F := by simp
      rw [hp2] at hp1
      exact hp1
    rw [hperm.nodup_iff]
    refine List.Nodup.append h.nd hFnd ?_
    intro a ha haF
    have hav : a ∈ st.visited := by
      rcases List.mem_append.1 ha with he | hf
      · exact h.evis a he
      · exact h.fvis a hf
    exact hFfresh a haF hav
  · intro a ha
    rcases (hvis a).1 ha with hav | haF
    · rcases h.visEF a hav with he | hf
      · exact Or.inl (by rw [h3exp]; exact List.mem_append_left _ he)
      · rw [hfr] at hf
        rcases List.mem_cons.1 hf with rfl | hrest
        · exact Or.inl (by rw [h3exp]; simp)
        · refine Or.inr ?_
          rw [h3fr.mem_iff]
          exact List.mem_append_left _ hrest
    · exact Or.inr (by rw [h3fr.mem_iff]; exact List.mem_append_right _ haF)
  · intro a la hla
    rw [hlev a] at hla
    by_cases haF : a ∈ F
    · rw [if_pos haF] at hla
      obtain rfl : lc + 1 = la := by injection hla
      exact mem_reachN_succ (h.lreach current lc hlc) (hFsucc a haF)
    · rw [if_neg haF] at hla
      exact h.lreach a la hla
  · intro a la hla
    rw [hlev a] at hla
    have hsub : st.visited ⊆ st3.visited := by
      rw [h3vis]; exact Finset.subset_union_left
    by_cases haF : a ∈ F
    · rw [if_pos haF] at hla
      obtain rfl : lc + 1 = la := by injection hla
      have h1 : lc < st.visited.card := h.lcard current lc hlc
      have h2 : st.visited.card < st3.visited.card := by
        have hins : insert a st.visited ⊆ st3.visited := by
          rw [h3vis]
          intro x hx
          rcases Finset.mem_insert.1 hx with rfl | hx
          · exact Finset.mem_union_right _ (List.mem_toFinset.2 haF)
          · exact Finset.mem_union_left _ hx
        have hc1 := Finset.card_le_card hins
        rw [Finset.card_insert_of_not_mem (hFfresh a haF)] at hc1
        omega
      omega
    · rw [if_neg haF] at hla
      have h1 := h.lcard a la hla
      have h2 := Finset.card_le_card hsub
      omega
  · intro x hx
    rcases (hvis x).1 hx with hx | hxF
    · exact h.vnodes hx
    · exact Finset.mem_insert_of_mem (mem_nodes_of_succ (hFsucc x hxF))
  · rw [h3par, h3vis]
    have h2 := Finset.card_union_le st.visited F.toFinset
    have h3 := F.toFinset_card_le
    have h4 := h.plen
    simp only [List.length_append, List.length_map, List.length_reverse]
    omega
  · rw [h3eo, h3exp, h.eord]
    simp
  · obtain ⟨lvR, frR, hsteps⟩ := h3steps
    rw [hsteps, h3exp, List.map_append, h.smap]
    simp
  · obtain ⟨lvR, frR, hsteps⟩ := h3steps
    have hlen : st.steps.length = st.expansions.length + 1 := by
      have h2 := congrArg List.length h.smap
      simpa using h2
    have heo := h.eord
    have hstep : st.expOrder + 1 = st.steps.length := by omega
    rw [hsteps, List.map_append, h.snum, List.length_append]
    simp [List.range_succ, hstep]
  · obtain ⟨lvR, frR, hsteps⟩ := h3steps
    rw [hsteps, List.chain'_append]
    refine ⟨h.schain, List.chain'_singleton _, ?_⟩
    intro x hx y hy
    obtain ⟨t, hlast, hsnap⟩ := h.slast
    rw [hlast] at hx
    simp only [Option.mem_def, Option.some.injEq] at hx
    simp only [List.head?_cons, Option.mem_def, Option.some.injEq] at hy
    subst hx
    subst hy
    show t.visitedSnap ⊆ st3.visited
    rw [hsnap, h3vis]
    exact Finset.subset_union_left
  · obtain ⟨lvR, frR, hsteps⟩ := h3steps
    rw [hsteps]
    refine ⟨{ step := st.expOrder + 1, expansion := some current, levelVal := lvR, frontier := frR, visitedSnap := st3.visited }, ?_, rfl⟩
    simp

/-! ## Field characterizations of the two expansion bodies -/

theorem bfsExpand_fields (g : Graph α) (current : α) (st1 : SearchState α) :
    bfsExpand g current st1 =
      { frontier := st1.frontier ++ freshList st1.visited (sortAsc (successors g current)),
        visited := st1.visited ∪
          (freshList st1.visited (sortAsc (successors g current))).toFinset,
        parent := ((freshList st1.visited (sortAsc (successors g current))).reverse.map
          fun n => (n, some current)) ++ st1.parent,
        level := ((freshList st1.visited (sortAsc (successors g current))).reverse.map
          fun n => (n, levelD st1.level current + 1)) ++ st1.level,
        steps := st1.steps ++
          [{ step := st1.expOrder, expansion := some current,
             levelVal := levelD st1.level current,
             frontier := st1.frontier ++ sortAsc (st1.frontier ++
               freshList st1.visited (sortAsc (successors g current))),
             visitedSnap := st1.visited ∪
               (freshList st1.visited (sortAsc (successors g current))).toFinset }],
        expOrder := st1.expOrder, expansions := st1.expansions } := by
  simp only [bfsExpand]
  rw [discover_spec]
  simp [foldl_pushQ]

theorem dfsExpand_fields (g : Graph α) (current : α) (st1 : SearchState α) :
    dfsExpand g current st1 =
      { frontier := (freshList st1.visited (sortDesc (successors g current))).reverse ++
          st1.frontier,
        visited := st1.visited ∪
          (freshList st1.visited (sortDesc (successors g current))).toFinset,
        parent := ((freshList st1.visited (sortDesc (successors g current))).reverse.map
          fun n => (n, some current)) ++ st1.parent,
        level := ((freshList st1.visited (sortDesc (successors g current))).reverse.map
          fun n => (n, levelD st1.level current + 1)) ++ st1.level,
        steps := st1.steps ++
          [{ step := st1.expOrder, expansion := some current,
             levelVal := levelD st1.level current,
             frontier := (freshList st1.visited (sortDesc (successors g current))).reverse ++
               st1.frontier,
             visitedSnap := st1.visited ∪
               (freshList st1.visited (sortDesc (successors g current))).toFinset }],
        expOrder := st1.expOrder, expansions := st1.expansions } := by
  simp only [dfsExpand]
  rw [discover_spec]
  simp [foldl_pushS]

theorem exists_level_of_vis {g : Graph α} {s : α} {st : SearchState α}
    (h : InvM g s st) {a : α} (ha : a ∈ st.visited) :
    ∃ la, alookup st.level a = some la := by
  have h1 := (h.lk a).2 ha
  cases hx : alookup st.level a
  · rw [hx] at h1; simp at h1
  · exact ⟨_, rfl⟩

theorem InvM_bfsExpand (g : Graph α) (s current : α) (rest : List α)
    (st : SearchState α) (h : InvM g s st) (hfr : st.frontier = current :: rest) :
    InvM g s (bfsExpand g current (popState current rest st)) := by
  have hcv : current ∈ st.visited :=
    h.fvis current (by rw [hfr]; exact List.mem_cons_self _ _)
  obtain ⟨lc, hlc⟩ := exists_level_of_vis h hcv
  have hlcD : levelD st.level current = lc := by rw [levelD, hlc]; rfl
  refine InvM_step g s current rest (sortAsc (successors g current)) st _ h hfr
    (fun n hn => sortAsc_mem.1 hn)
    (freshList st.visited (sortAsc (successors g current))) rfl lc hlc
    ?_ ?_ ?_ ?_ ?_ ?_ ?_
  · rw [bfsExpand_fields]
    exact List.Perm.refl _
  · rw [bfsExpand_fields]; rfl
  · rw [bfsExpand_fields]; rfl
  · rw [bfsExpand_fields]
    show ((freshList st.visited (sortAsc (successors g current))).reverse.map
      fun n => (n, levelD st.level current + 1)) ++ st.level = _
    rw [hlcD]
  · rw [bfsExpand_fields]
    exact ⟨levelD st.level current, _, rfl⟩
  · rw [bfsExpand_fields]; rfl
  · rw [bfsExpand_fields]; rfl

theorem InvM_dfsExpand (g : Graph α) (s current : α) (rest : List α)
    (st : SearchState α) (h : InvM g s st) (hfr : st.frontier = current :: rest) :
    InvM g s (dfsExpand g current (popState current rest st)) := by
  have hcv : current ∈ st.visited :=
    h.fvis current (by rw [hfr]; exact List.mem_cons_self _ _)
  obtain ⟨lc, hlc⟩ := exists_level_of_vis h hcv
  have hlcD : levelD st.level current = lc := by rw [levelD, hlc]; rfl
  refine InvM_step g s current rest (sortDesc (successors g current)) st _ h hfr
    (fun n hn => sortDesc_mem.1 hn)
    (freshList st.visited (sortDesc (successors g current))) rfl lc hlc
    ?_ ?_ ?_ ?_ ?_ ?_ ?_
  · rw [dfsExpand_fields]
    show ((freshList st.visited (sortDesc (successors g current))).reverse ++ rest).Perm _
    refine List.Perm.trans (List.Perm.append_right rest
      (List.reverse_perm (freshList st.visited (sortDesc (successors g current)))))
      List.perm_append_comm
  · rw [dfsExpand_fields]; rfl
  · rw [dfsExpand_fields]; rfl
  · rw [dfsExpand_fields]
    show ((freshList st.visited (sortDesc (successors g current))).reverse.map
      fun n => (n, levelD st.level current + 1)) ++ st.level = _
    rw [hlcD]
  · rw [dfsExpand_fields]
    exact ⟨levelD st.level current, _, rfl⟩
  · rw [dfsExpand_fields]; rfl
  · rw [dfsExpand_fields]; rfl

/-! ## Unfolding and end-state characterization of the loops -/

theorem bfsLoop_zero (g : Graph α) (goal : α) (last : Option α)
    (st : SearchState α) : bfsLoop g goal 0 last st = none := rfl

theorem dfsLoop_zero (g : Graph α) (goal : α) (last : Option α)
    (st : SearchState α) : dfsLoop g goal 0 last st = none := rfl

theorem bfsLoop_nil (g : Graph α) (goal : α) (fuel : Nat) (last : Option α)
    (st : SearchState α) (hfr : st.frontier = []) :
    bfsLoop g goal (fuel + 1) last st = some (last, st) := by
  rw [bfsLoop, hfr]

theorem dfsLoop_nil (g : Graph α) (goal : α) (fuel : Nat) (last : Option α)
    (st : SearchState α) (hfr : st.frontier = []) :
    dfsLoop g goal (fuel + 1) last st = some (last, st) := by
  rw [dfsLoop, hfr]

theorem bfsLoop_cons (g : Graph α) (goal : α) (fuel : Nat) (last : Option α)
    (st : SearchState α) (current : α) (rest : List α)
    (hfr : st.frontier = current :: rest) :
    bfsLoop g goal (fuel + 1) last st =
      if current = goal then some (some current, popState current rest st)
      else bfsLoop g goal fuel (some current)
        (bfsExpand g current (popState current rest st)) := by
  rw [bfsLoop, hfr]

theorem dfsLoop_cons (g : Graph α) (goal : α) (fuel : Nat) (last : Option α)
    (st : SearchState α) (current : α) (rest : List α)
    (hfr : st.frontier = current :: rest) :
    dfsLoop g goal (fuel + 1) last st =
      if current = goal then some (some current, popState current rest st)
      else dfsLoop g goal fuel (some current)
        (dfsExpand g current (popState current rest st)) := by
  rw [dfsLoop, hfr]

theorem bfsExpand_expansions (g : Graph α) (current : α) (st1 : SearchState α) :
    (bfsExpand g current st1).expansions = st1.expansions := by
  rw [bfsExpand_fields]

theorem dfsExpand_expansions (g : Graph α) (current : α) (st1 : SearchState α) :
    (dfsExpand g current st1).expansions = st1.expansions := by
  rw [dfsExpand_fields]

theorem bfsLoop_expansions_extend (g : Graph α) (goal : α) :
    ∀ (fuel : Nat) (last l' : Option α) (st st' : SearchState α),
      bfsLoop g goal fuel last st = some (l', st') →
      ∃ t, st'.expansions = st.expansions ++ t := by
  intro fuel
  induction fuel with
  | zero =>
    intro last l' st st' h
    rw [bfsLoop_zero] at h
    exact absurd h (by simp)
  | succ fuel ih =>
    intro last l' st st' h
    cases hfr : st.frontier with
    | nil =>
      rw [bfsLoop_nil g goal fuel last st hfr] at h
      simp only [Option.some.injEq, Prod.mk.injEq] at h
      obtain ⟨-, rfl⟩ := h
      exact ⟨[], by simp⟩
    | cons current rest =>
      rw [bfsLoop_cons g goal fuel last st current rest hfr] at h
      by_cases hg : current = goal
      · rw [if_pos hg] at h
        simp only [Option.some.injEq, Prod.mk.injEq] at h
        obtain ⟨-, rfl⟩ := h
        exact ⟨[current], rfl⟩
      · rw [if_neg hg] at h
        obtain ⟨t, ht⟩ := ih _ _ _ _ h
        rw [bfsExpand_expansions] at ht
        exact ⟨[current] ++ t, by rw [ht]; simp [popState]⟩

theorem dfsLoop_expansions_extend (g : Graph α) (goal : α) :
    ∀ (fuel : Nat) (last l' : Option α) (st st' : SearchState α),
      dfsLoop g goal fuel last st = some (l', st') →
      ∃ t, st'.expansions = st.expansions ++ t := by
  intro fuel
  induction fuel with
  | zero =>
    intro last l' st st' h
    rw [dfsLoop_zero] at h
    exact absurd h (by simp)
  | succ fuel ih =>
    intro last l' st st' h
    cases hfr : st.frontier with
    | nil =>
      rw [dfsLoop_nil g goal fuel last st hfr] at h
      simp only [Option.some.injEq, Prod.mk.injEq] at h
      obtain ⟨-, rfl⟩ := h
      exact ⟨[], by simp⟩
    | cons current rest =>
      rw [dfsLoop_cons g goal fuel last st current rest hfr] at h
      by_cases hg : current = goal
      · rw [if_pos hg] at h
        simp only [Option.some.injEq, Prod.mk.injEq] at h
        obtain ⟨-, rfl⟩ := h
        exact ⟨[current], rfl⟩
      · rw [if_neg hg] at h
        obtain ⟨t, ht⟩ := ih _ _ _ _ h
        rw [dfsExpand_expansions] at ht
        exact ⟨[current] ++ t, by rw [ht]; simp [popState]⟩

theorem bfsLoop_end (g : Graph α) (goal : α) (P : SearchState α → Prop)
    (hstep : ∀ current rest st, P st → st.frontier = current :: rest →
      current ≠ goal → P (bfsExpand g current (popState current rest st))) :
    ∀ (fuel : Nat) (last l' : Option α) (st st' : SearchState α), P st →
      bfsLoop g goal fuel last st = some (l', st') →
      (P st' ∧ st'.frontier = [] ∧
        (l' = last ∨ ∃ c, l' = some c ∧ c ∈ st'.expansions ∧ c ≠ goal)) ∨
      (∃ stp rest, P stp ∧ stp.frontier = goal :: rest ∧
        st' = popState goal rest stp ∧ l' = some goal) := by
  intro fuel
  induction fuel with
  | zero =>
    intro last l' st st' _ h
    rw [bfsLoop_zero] at h
    exact absurd h (by simp)
  | succ fuel ih =>
    intro last l' st st' hP h
    cases hfr : st.frontier with
    | nil =>
      rw [bfsLoop_nil g goal fuel last st hfr] at h
      simp only [Option.some.injEq, Prod.mk.injEq] at h
      obtain ⟨rfl, rfl⟩ := h
      exact Or.inl ⟨hP, hfr, Or.inl rfl⟩
    | cons current rest =>
      rw [bfsLoop_cons g goal fuel last st current rest hfr] at h
      by_cases hg : current = goal
      · rw [if_pos hg] at h
        simp only [Option.some.injEq, Prod.mk.injEq] at h
        obtain ⟨rfl, rfl⟩ := h
        subst hg
        exact Or.inr ⟨st, rest, hP, hfr, rfl, rfl⟩
      · rw [if_neg hg] at h
        have hP3 := hstep current rest st hP hfr hg
        rcases ih (some current) l' _ st' hP3 h with ⟨hP', hfr', hl⟩ | hbreak
        · refine Or.inl ⟨hP', hfr', ?_⟩
          rcases hl with rfl | ⟨c, rfl, hc, hcg⟩
          · refine Or.inr ⟨current, rfl, ?_, hg⟩
            obtain ⟨t, ht⟩ := bfsLoop_expansions_extend g goal fuel _ _ _ _ h
            rw [bfsExpand_expansions] at ht
            rw [ht]
            simp [popState]
          · exact Or.inr ⟨c, rfl, hc, hcg⟩
        · exact Or.inr hbreak

theorem dfsLoop_end (g : Graph α) (goal : α) (P : SearchState α → Prop)
    (hstep : ∀ current rest st, P st → st.frontier = current :: rest →
      current ≠ goal → P (dfsExpand g current (popState current rest st))) :
    ∀ (fuel : Nat) (last l' : Option α) (st st' : SearchState α), P st →
      dfsLoop g goal fuel last st = some (l', st') →
      (P st' ∧ st'.frontier = [] ∧
        (l' = last ∨ ∃ c, l' = some c ∧ c ∈ st'.expansions ∧ c ≠ goal)) ∨
      (∃ stp rest, P stp ∧ stp.frontier = goal :: rest ∧
        st' = popState goal rest stp ∧ l' = some goal) := by
  intro fuel
  induction fuel with
  | zero =>
    intro last l' st st' _ h
    rw [dfsLoop_zero] at h
    exact absurd h (by simp)
  | succ fuel ih =>
    intro last l' st st' hP h
    cases hfr : st.frontier with
    | nil =>
      rw [dfsLoop_nil g goal fuel last st hfr] at h
      simp only [Option.some.injEq, Prod.mk.injEq] at h
      obtain ⟨rfl, rfl⟩ := h
      exact Or.inl ⟨hP, hfr, Or.inl rfl⟩
    | cons current rest =>
      rw [dfsLoop_cons g goal fuel last st current rest hfr] at h
      by_cases hg : current = goal
      · rw [if_pos hg] at h
        simp only [Option.some.injEq, Prod.mk.injEq] at h
        obtain ⟨rfl, rfl⟩ := h
        subst hg
        exact Or.inr ⟨st, rest, hP, hfr, rfl, rfl⟩
      · rw [if_neg hg] at h
        have hP3 := hstep current rest st hP hfr hg
        rcases ih (some current) l' _ st' hP3 h with ⟨hP', hfr', hl⟩ | hbreak
        · refine Or.inl ⟨hP', hfr', ?_⟩
          rcases hl with rfl | ⟨c, rfl, hc, hcg⟩
          · refine Or.inr ⟨current, rfl, ?_, hg⟩
            obtain ⟨t, ht⟩ := dfsLoop_expansions_extend g goal fuel _ _ _ _ h
            rw [dfsExpand_expansions] at ht
            rw [ht]
            simp [popState]
          · exact Or.inr ⟨c, rfl, hc, hcg⟩
        · exact Or.inr hbreak

theorem bfsRun_spec (g : Graph α) (s goal : α) :
    bfsLoop g goal (searchFuel g s) none (initState s) =
      some (bfsRun g s goal) :=
  (Option.some_get _).symm

theorem dfsRun_spec (g : Graph α) (s goal : α) :
    dfsLoop g goal (searchFuel g s) none (initState s) =
      some (dfsRun g s goal) :=
  (Option.some_get _).symm

theorem bfsRun_end (g : Graph α) (s goal : α) (P : SearchState α → Prop)
    (hinit : P (initState s))
    (hstep : ∀ current rest st, P st → st.frontier = current :: rest →
      current ≠ goal → P (bfsExpand g current (popState current rest st))) :
    (P (bfsRun g s goal).2 ∧ (bfsRun g s goal).2.frontier = [] ∧
      ((bfsRun g s goal).1 = none ∨ ∃ c, (bfsRun g s goal).1 = some c ∧
        c ∈ (bfsRun g s goal).2.expansions ∧ c ≠ goal)) ∨
    (∃ stp rest, P stp ∧ stp.frontier = goal :: rest ∧
      (bfsRun g s goal).2 = popState goal rest stp ∧
      (bfsRun g s goal).1 = some goal) :=
  bfsLoop_end g goal P hstep (searchFuel g s) none (bfsRun g s goal).1
    (initState s) (bfsRun g s goal).2 hinit (by exact bfsRun_spec g s goal)

theorem dfsRun_end (g : Graph α) (s goal : α) (P : SearchState α → Prop)
    (hinit : P (initState s))
    (hstep : ∀ current rest st, P st → st.frontier = current :: rest →
      current ≠ goal → P (dfsExpand g current (popState current rest st))) :
    (P (dfsRun g s goal).2 ∧ (dfsRun g s goal).2.frontier = [] ∧
      ((dfsRun g s goal).1 = none ∨ ∃ c, (dfsRun g s goal).1 = some c ∧
        c ∈ (dfsRun g s goal).2.expansions ∧ c ≠ goal)) ∨
    (∃ stp rest, P stp ∧ stp.frontier = goal :: rest ∧
      (dfsRun g s goal).2 = popState goal rest stp ∧
      (dfsRun g s goal).1 = some goal) :=
  dfsLoop_end g goal P hstep (searchFuel g s) none (dfsRun g s goal).1
    (initState s) (dfsRun g s goal).2 hinit (by exact dfsRun_spec g s goal)

/-! ## Chain helpers for frontier level analysis -/

theorem chain'_head_bound {f : α → Nat} :
    ∀ {c : α} {rest : List α},
      List.Chain' (fun a b => f a ≤ f b) (c :: rest) → ∀ a ∈ c :: rest, f c ≤ f a := by
  intro c rest
  induction rest generalizing c with
  | nil =>
    intro _ a ha
    rw [List.mem_singleton] at ha
    subst ha
    exact le_refl _
  | cons r rest ih =>
    intro hch a ha
    obtain ⟨hcr, hch2⟩ := List.chain'_cons.1 hch
    rcases List.mem_cons.1 ha with rfl | ha2
    · exact le_refl _
    · exact le_trans hcr (ih hch2 a ha2)

theorem chain'_levels_congr {f f2 : α → Nat} :
    ∀ {l : List α}, (∀ a ∈ l, f a = f2 a) →
      List.Chain' (fun a b => f a ≤ f b) l →
      List.Chain' (fun a b => f2 a ≤ f2 b) l := by
  intro l
  induction l with
  | nil => intro _ _; exact List.chain'_nil
  | cons a t ih =>
    intro hfg hch
    rw [List.chain'_cons'] at hch ⊢
    refine ⟨?_, ih (fun x hx => hfg x (List.mem_cons_of_mem _ hx)) hch.2⟩
    intro y hy
    have hyt : y ∈ t := List.mem_of_mem_head? hy
    rw [← hfg a (List.mem_cons_self _ _), ← hfg y (List.mem_cons_of_mem _ hyt)]
    exact hch.1 y hy

theorem chain'_levels_const {f : α → Nat} {C : Nat} :
    ∀ {l : List α}, (∀ a ∈ l, f a = C) →
      List.Chain' (fun a b => f a ≤ f b) l := by
  intro l
  induction l with
  | nil => intro _; exact List.chain'_nil
  | cons a t ih =>
    intro hc
    rw [List.chain'_cons']
    refine ⟨?_, ih fun x hx => hc x (List.mem_cons_of_mem _ hx)⟩
    intro y hy
    rw [hc a (List.mem_cons_self _ _),
      hc y (List.mem_cons_of_mem _ (List.mem_of_mem_head? hy))]

/-! ## The invariant specific to breadth-first search -/

/-- BFS-only facts: the level map records exact shortest distances, the
queue's levels are nondecreasing and within one of the head's, every
expanded node has all successors discovered, and every node strictly
closer than the queue head is already visited. -/
structure InvB (g : Graph α) (s : α) (st : SearchState α) : Prop where
  m : InvM g s st
  lexact : ∀ a la, alookup st.level a = some la → IsDistance g s a la
  fchain : List.Chain' (fun a b => levelD st.level a ≤ levelD st.level b) st.frontier
  fspread : ∀ c rest, st.frontier = c :: rest →
    ∀ a ∈ st.frontier, levelD st.level a ≤ levelD st.level c + 1
  eclosed : ∀ a ∈ st.expansions, ∀ b ∈ successors g a, b ∈ st.visited
  gmin : ∀ k, (∀ c rest, st.frontier = c :: rest → k < levelD st.level c) →
    ∀ x ∈ reachN g s k, x ∈ st.visited

theorem InvB_init (g : Graph α) (s : α) : InvB g s (initState s) := by
  have hlev0 : levelD (initState s).level s = 0 := by
    rw [levelD, show (initState s).level = [(s, 0)] from rfl, alookup_cons, if_pos rfl]
    rfl
  refine ⟨InvM_init g s, ?_, ?_, ?_, ?_, ?_⟩
  · intro a la hla
    rw [show (initState s).level = [(s, 0)] from rfl, alookup_cons] at hla
    rcases eq_or_ne s a with h | h
    · rw [if_pos h] at hla
      obtain rfl : (0 : Nat) = la := by injection hla
      subst h
      constructor
      · rw [reachN_zero]; exact Finset.mem_singleton_self s
      · intro j hj
        exact absurd hj (Nat.not_lt_zero j)
    · rw [if_neg h, alookup_nil] at hla
      exact absurd hla (by simp)
  · show List.Chain' _ [s]
    exact List.chain'_singleton s
  · intro c rest hfr a ha
    have hfr2 : [s] = c :: rest := hfr
    have ha2 : a ∈ [s] := ha
    simp only [List.cons.injEq] at hfr2
    obtain ⟨rfl, -⟩ := hfr2
    rw [List.mem_singleton] at ha2
    subst ha2
    exact Nat.le_succ _
  · intro a ha
    simp [initState] at ha
  · intro k hk x hx
    have h1 := hk s [] rfl
    rw [hlev0] at h1
    exact absurd h1 (Nat.not_lt_zero k)

theorem InvB_step (g : Graph α) (s current : α) (rest ns : List α)
    (st st3 : SearchState α) (h : InvB g s st)
    (hfr : st.frontier = current :: rest)
    (hns : ∀ n ∈ ns, n ∈ successors g current)
    (hns_all : ∀ b ∈ successors g current, b ∈ ns)
    (F : List α) (hF : F = freshList st.visited ns)
    (lc : Nat) (hlc : alookup st.level current = some lc)
    (h3fr : st3.frontier = rest ++ F)
    (h3vis : st3.visited = st.visited ∪ F.toFinset)
    (h3par : st3.parent = (F.reverse.map fun n => (n, some current)) ++ st.parent)
    (h3lev : st3.level = (F.reverse.map fun n => (n, lc + 1)) ++ st.level)
    (h3steps : ∃ lvRow frRow, st3.steps = st.steps ++
      [{ step := st.expOrder + 1, expansion := some current, levelVal := lvRow,
         frontier := frRow, visitedSnap := st3.visited }])
    (h3eo : st3.expOrder = st.expOrder + 1)
    (h3exp : st3.expansions = st.expansions ++ [current]) :
    InvB g s st3 := by
  have hm3 : InvM g s st3 := InvM_step g s current rest ns st st3 h.m hfr hns F hF lc hlc
    (by rw [h3fr]) h3vis h3par h3lev h3steps h3eo h3exp
  have hcv : current ∈ st.visited :=
    h.m.fvis current (by rw [hfr]; exact List.mem_cons_self _ _)
  have hFfresh : ∀ a ∈ F, a ∉ st.visited := by
    rw [hF]; exact fun a ha => not_vis_of_mem_freshList ha
  have hFsucc : ∀ a ∈ F, a ∈ successors g current := by
    rw [hF]; exact fun a ha => hns a (mem_of_mem_freshList ha)
  have hlcD : levelD st.level current = lc := by rw [levelD, hlc]; rfl
  have hdc : IsDistance g s current lc := h.lexact current lc hlc
  have hlev : ∀ a, alookup st3.level a =
      if a ∈ F then some (lc + 1) else alookup st.level a := by
    intro a
    rw [h3lev, alookup_keyMap]
    simp [List.mem_reverse]
  have hvis : ∀ a, a ∈ st3.visited ↔ a ∈ st.visited ∨ a ∈ F := by
    intro a; rw [h3vis]; simp
  have hsuccvis : ∀ b ∈ successors g current, b ∈ st3.visited := by
    intro b hb
    by_cases hbv : b ∈ st.visited
    · exact (hvis b).2 (Or.inl hbv)
    · refine (hvis b).2 (Or.inr ?_)
      rw [hF]
      exact mem_freshList (hns_all b hb) hbv
  have hfchainC : List.Chain' (fun a b => levelD st.level a ≤ levelD st.level b)
      (current :: rest) := by rw [← hfr]; exact h.fchain
  have hfrlow : ∀ a ∈ st.frontier, lc ≤ levelD st.level a := by
    intro a ha
    rw [← hlcD]
    exact chain'_head_bound hfchainC a (by rw [← hfr]; exact ha)
  have hfrhigh : ∀ a ∈ st.frontier, levelD st.level a ≤ lc + 1 := by
    intro a ha
    rw [← hlcD]
    exact h.fspread current rest hfr a ha
  have hrestlev : ∀ a ∈ rest, levelD st3.level a = levelD st.level a := by
    intro a ha
    have hav : a ∈ st.visited :=
      h.m.fvis a (by rw [hfr]; exact List.mem_cons_of_mem _ ha)
    have haF : a ∉ F := fun hc => hFfresh a hc hav
    rw [levelD, hlev a, if_neg haF, levelD]
  have hFlev : ∀ a ∈ F, levelD st3.level a = lc + 1 := by
    intro a ha
    rw [levelD, hlev a, if_pos ha]
    rfl
  have hsubOld : ∀ j, j ≤ lc → ∀ x, x ∈ reachN g s j → x ∈ st.visited := by
    intro j
    induction j with
    | zero =>
      intro _ x hx
      rw [reachN_zero, Finset.mem_singleton] at hx
      subst hx
      exact h.m.svis
    | succ j ih =>
      intro hj x hx
      rcases mem_reachN_succ_elim hx with hx2 | ⟨p, hp, hxp⟩
      · exact ih (by omega) x hx2
      · have hpv : p ∈ st.visited := ih (by omega) p hp
        rcases h.m.visEF p hpv with hpe | hpf
        · exact h.eclosed p hpe x hxp
        · exfalso
          rw [hfr] at hpf
          rcases List.mem_cons.1 hpf with rfl | hpr
          · exact hdc.2 j (by omega) hp
          · obtain ⟨lp, hlp⟩ := exists_level_of_vis h.m hpv
            have hd := h.lexact p lp hlp
            have h1 : lc ≤ lp := by
              have h2 := hfrlow p (by rw [hfr]; exact List.mem_cons_of_mem _ hpr)
              rw [levelD, hlp] at h2
              exact h2
            exact hd.2 j (by omega) hp
  refine ⟨hm3, ?_, ?_, ?_, ?_, ?_⟩
  · intro a la hla
    rw [hlev a] at hla
    by_cases haF : a ∈ F
    · rw [if_pos haF] at hla
      obtain rfl : lc + 1 = la := by injection hla
      constructor
      · exact mem_reachN_succ hdc.1 (hFsucc a haF)
      · intro j hj haj
        exact hFfresh a haF (hsubOld j (by omega) a haj)
    · rw [if_neg haF] at hla
      exact h.lexact a la hla
  · rw [h3fr, List.chain'_append]
    refine ⟨?_, ?_, ?_⟩
    · exact chain'_levels_congr (fun a ha => (hrestlev a ha).symm) hfchainC.tail
    · exact chain'_levels_const hFlev
    · intro x hx y hy
      have hxr : x ∈ rest := List.mem_of_mem_getLast? hx
      have hyF : y ∈ F := List.mem_of_mem_head? hy
      rw [hrestlev x hxr, hFlev y hyF]
      exact hfrhigh x (by rw [hfr]; exact List.mem_cons_of_mem _ hxr)
  · intro c3 rest3 hfr3 a ha
    rw [h3fr] at hfr3 ha
    have hc3low : lc ≤ levelD st3.level c3 := by
      cases hrest : rest with
      | nil =>
        rw [hrest] at hfr3
        simp only [List.nil_append] at hfr3
        have hc3F : c3 ∈ F := by rw [hfr3]; exact List.mem_cons_self _ _
        rw [hFlev c3 hc3F]
        omega
      | cons r0 rest2 =>
        rw [hrest] at hfr3
        simp only [List.cons_append, List.cons.injEq] at hfr3
        obtain ⟨hr0, -⟩ := hfr3
        rw [← hr0]
        have hc3r : r0 ∈ rest := by rw [hrest]; exact List.mem_cons_self _ _
        rw [hrestlev r0 hc3r]
        exact hfrlow r0 (by rw [hfr]; exact List.mem_cons_of_mem _ hc3r)
    rcases List.mem_append.1 ha with har | haF
    · rw [hrestlev a har]
      have h2 := hfrhigh a (by rw [hfr]; exact List.mem_cons_of_mem _ har)
      omega
    · rw [hFlev a haF]
      omega
  · intro a ha b hb
    rw [h3exp] at ha
    rcases List.mem_append.1 ha with he | hcur
    · exact (hvis b).2 (Or.inl (h.eclosed a he b hb))
    · rw [List.mem_singleton] at hcur
      subst hcur
      exact hsuccvis b hb
  · intro k hk x hx
    cases hfr3eq : st3.frontier with
    | nil =>
      have haux : ∀ k2, ∀ x2 ∈ reachN g s k2, x2 ∈ st3.visited := by
        intro k2
        induction k2 with
        | zero =>
          intro x2 hx2
          rw [reachN_zero, Finset.mem_singleton] at hx2
          subst hx2
          exact hm3.svis
        | succ k2 ih =>
          intro x2 hx2
          rcases mem_reachN_succ_elim hx2 with hx3 | ⟨p, hp, hxp⟩
          · exact ih x2 hx3
          · have hpv : p ∈ st3.visited := ih p hp
            rcases hm3.visEF p hpv with hpe | hpf
            · rw [h3exp] at hpe
              rcases List.mem_append.1 hpe with he | hc
              · exact (hvis x2).2 (Or.inl (h.eclosed p he x2 hxp))
              · rw [List.mem_singleton] at hc
                subst hc
                exact hsuccvis x2 hxp
            · rw [hfr3eq] at hpf
              simp at hpf
      exact haux k x hx
    | cons c3 rest3 =>
      have hkc := hk c3 rest3 hfr3eq
      have hc3high : levelD st3.level c3 ≤ lc + 1 := by
        rw [h3fr] at hfr3eq
        cases hrest : rest with
        | nil =>
          rw [hrest] at hfr3eq
          simp only [List.nil_append] at hfr3eq
          have hc3F : c3 ∈ F := by rw [hfr3eq]; exact List.mem_cons_self _ _
          rw [hFlev c3 hc3F]
        | cons r0 rest2 =>
          rw [hrest] at hfr3eq
          simp only [List.cons_append, List.cons.injEq] at hfr3eq
          obtain ⟨hr0, -⟩ := hfr3eq
          rw [← hr0]
          have hc3r : r0 ∈ rest := by rw [hrest]; exact List.mem_cons_self _ _
          rw [hrestlev r0 hc3r]
          exact hfrhigh r0 (by rw [hfr]; exact List.mem_cons_of_mem _ hc3r)
      have hk2 : k ≤ lc := by omega
      exact (hvis x).2 (Or.inl (hsubOld k hk2 x hx))

theorem InvB_bfsExpand (g : Graph α) (s current : α) (rest : List α)
    (st : SearchState α) (h : InvB g s st) (hfr : st.frontier = current :: rest) :
    InvB g s (bfsExpand g current (popState current rest st)) := by
  have hcv : current ∈ st.visited :=
    h.m.fvis current (by rw [hfr]; exact List.mem_cons_self _ _)
  obtain ⟨lc, hlc⟩ := exists_level_of_vis h.m hcv
  have hlcD : levelD st.level current = lc := by rw [levelD, hlc]; rfl
  refine InvB_step g s current rest (sortAsc (successors g current)) st _ h hfr
    (fun n hn => sortAsc_mem.1 hn) (fun b hb => sortAsc_mem.2 hb)
    (freshList st.visited (sortAsc (successors g current))) rfl lc hlc
    ?_ ?_ ?_ ?_ ?_ ?_ ?_
  · rw [bfsExpand_fields]; rfl
  · rw [bfsExpand_fields]; rfl
  · rw [bfsExpand_fields]; rfl
  · rw [bfsExpand_fields]
    show ((freshList st.visited (sortAsc (successors g current))).reverse.map
      fun n => (n, levelD st.level current + 1)) ++ st.level = _
    rw [hlcD]
  · rw [bfsExpand_fields]
    exact ⟨levelD st.level current, _, rfl⟩
  · rw [bfsExpand_fields]; rfl
  · rw [bfsExpand_fields]; rfl

/-! ## Path reconstruction correctness -/

theorem option_join_some {β2 : Type} (o : Option β2) : (some o).join = o := rfl

theorem walk_none (pm : List (α × Option α)) (fuel : Nat) :
    walk pm fuel none = [] := by cases fuel <;> rfl

theorem walk_spec (g : Graph α) (s : α) (st : SearchState α) (h : InvM g s st) :
    ∀ la a, alookup st.level a = some la → ∀ fuel, la < fuel →
      (walk st.parent fuel (some a)).head? = some a ∧
      (walk st.parent fuel (some a)).getLast? = some s ∧
      List.Chain' (fun x y => x ∈ successors g y) (walk st.parent fuel (some a)) := by
  intro la
  induction la using Nat.strong_induction_on with
  | _ la ih =>
    intro a hla fuel hfuel
    obtain ⟨f2, rfl⟩ : ∃ f2, fuel = f2 + 1 := ⟨fuel - 1, by omega⟩
    have hav : a ∈ st.visited := (h.lk a).1 (by rw [hla]; rfl)
    have hpar : (alookup st.parent a).isSome := (h.pk a).2 hav
    rw [walk]
    cases hp : alookup st.parent a with
    | none => rw [hp] at hpar; simp at hpar
    | some po =>
      cases po with
      | none =>
        have has : a = s := h.pstart a hp
        rw [option_join_some, walk_none]
        exact ⟨rfl, by rw [has]; rfl, List.chain'_singleton a⟩
      | some p =>
        obtain ⟨hsucc, lp, hlp, hla2⟩ := h.pedge a p hp
        have hlaeq : la = lp + 1 := by
          rw [hla] at hla2
          injection hla2
        obtain ⟨hhead, hlast, hchain⟩ := ih lp (by omega) p hlp f2 (by omega)
        rw [option_join_some]
        refine ⟨rfl, ?_, ?_⟩
        · cases hw : walk st.parent f2 (some p) with
          | nil => rw [hw] at hhead; simp at hhead
          | cons b w2 =>
            rw [List.getLast?_cons_cons, ← hw]
            exact hlast
        · rw [List.chain'_cons']
          refine ⟨?_, hchain⟩
          intro y hy
          rw [hhead] at hy
          simp only [Option.mem_def, Option.some.injEq] at hy
          subst hy
          exact hsucc

theorem reconstructPath_spec (g : Graph α) (s : α) (st : SearchState α)
    (h : InvM g s st) (goal : α) (la : Nat)
    (hgl : alookup st.level goal = some la) :
    (reconstructPath st.parent goal).head? = some s ∧
    (reconstructPath st.parent goal).getLast? = some goal ∧
    List.Chain' (fun u v => v ∈ successors g u) (reconstructPath st.parent goal) := by
  have hfuel : la < st.parent.length + 1 := by
    have h1 := h.lcard goal la hgl
    have h2 := h.plen
    omega
  obtain ⟨hhead, hlast, hchain⟩ := walk_spec g s st h la goal hgl _ hfuel
  rw [reconstructPath]
  refine ⟨?_, ?_, ?_⟩
  · rw [List.head?_reverse]; exact hlast
  · rw [List.getLast?_reverse]; exact hhead
  · rw [List.chain'_reverse]
    exact hchain

/-! ## Final-state packaging -/

theorem breadth_first_search_eq (g : Graph α) (s goal : α) :
    breadth_first_search g s goal =
      (if (bfsRun g s goal).1 = some goal
        then reconstructPath (bfsRun g s goal).2.parent goal else [],
       (bfsRun g s goal).2.steps, (bfsRun g s goal).2.level) := rfl

theorem depth_first_search_eq (g : Graph α) (s goal : α) :
    depth_first_search g s goal =
      (if (dfsRun g s goal).1 = some goal
        then reconstructPath (dfsRun g s goal).2.parent goal else [],
       (dfsRun g s goal).2.steps, (dfsRun g s goal).2.level) := rfl

theorem bfsRun_invM (g : Graph α) (s goal : α) :
    ∃ st0 : SearchState α, InvM g s st0 ∧
      (bfsRun g s goal).2.parent = st0.parent ∧
      (bfsRun g s goal).2.level = st0.level ∧
      (bfsRun g s goal).2.visited = st0.visited ∧
      (bfsRun g s goal).2.steps = st0.steps := by
  rcases bfsRun_end g s goal (InvM g s) (InvM_init g s)
    (fun current rest st h hfr _ => InvM_bfsExpand g s current rest st h hfr) with
    ⟨hP, -, -⟩ | ⟨stp, rest, hP, -, heq, -⟩
  · exact ⟨_, hP, rfl, rfl, rfl, rfl⟩
  · exact ⟨stp, hP, by rw [heq]; rfl, by rw [heq]; rfl, by rw [heq]; rfl, by rw [heq]; rfl⟩

theorem dfsRun_invM (g : Graph α) (s goal : α) :
    ∃ st0 : SearchState α, InvM g s st0 ∧
      (dfsRun g s goal).2.parent = st0.parent ∧
      (dfsRun g s goal).2.level = st0.level ∧
      (dfsRun g s goal).2.visited = st0.visited ∧
      (dfsRun g s goal).2.steps = st0.steps := by
  rcases dfsRun_end g s goal (InvM g s) (InvM_init g s)
    (fun current rest st h hfr _ => InvM_dfsExpand g s current rest st h hfr) with
    ⟨hP, -, -⟩ | ⟨stp, rest, hP, -, heq, -⟩
  · exact ⟨_, hP, rfl, rfl, rfl, rfl⟩
  · exact ⟨stp, hP, by rw [heq]; rfl, by rw [heq]; rfl, by rw [heq]; rfl, by rw [heq]; rfl⟩

theorem bfsRun_level_exact (g : Graph α) (s goal : α) :
    (∀ a la, alookup (bfsRun g s goal).2.level a = some la → IsDistance g s a la) ∧
    ((∃ k, goal ∈ reachN g s k) → goal ∈ (bfsRun g s goal).2.visited) ∧
    (∀ a, (alookup (bfsRun g s goal).2.level a).isSome ↔
      a ∈ (bfsRun g s goal).2.visited) := by
  rcases bfsRun_end g s goal (InvB g s) (InvB_init g s)
    (fun current rest st h hfr _ => InvB_bfsExpand g s current rest st h hfr) with
    ⟨hP, hfrE, -⟩ | ⟨stp, rest, hP, hfrP, heq, -⟩
  · refine ⟨hP.lexact, ?_, hP.m.lk⟩
    rintro ⟨k, hk⟩
    refine hP.gmin k ?_ goal hk
    intro c r hcr
    rw [hfrE] at hcr
    exact absurd hcr (by simp)
  · have hf1 : (bfsRun g s goal).2.level = stp.level := by rw [heq]; rfl
    have hf2 : (bfsRun g s goal).2.visited = stp.visited := by rw [heq]; rfl
    refine ⟨?_, ?_, ?_⟩
    · rw [hf1]; exact hP.lexact
    · intro _
      rw [hf2]
      exact hP.m.fvis goal (by rw [hfrP]; exact List.mem_cons_self _ _)
    · intro a
      rw [hf1, hf2]
      exact hP.m.lk a

/-! ## Sibling expansion order -/

theorem before_append_singleton {X Y : α} {l : List α} (hX : X ∈ l) :
    Before X Y (l ++ [Y]) := by
  obtain ⟨s1, t1, rfl⟩ := List.append_of_mem hX
  exact ⟨s1, t1, [], by simp⟩

theorem before_cons_split {X Y c : α} {l : List α} (h : Before X Y (c :: l)) :
    (c = X ∧ Y ∈ l) ∨ Before X Y l := by
  obtain ⟨p, q, r, hpq⟩ := h
  cases p with
  | nil =>
    simp only [List.nil_append, List.cons.injEq] at hpq
    obtain ⟨rfl, rfl⟩ := hpq
    exact Or.inl ⟨rfl, by simp⟩
  | cons c2 p2 =>
    simp only [List.cons_append, List.cons.injEq] at hpq
    obtain ⟨rfl, rfl⟩ := hpq
    exact Or.inr ⟨p2, q, r, rfl⟩

theorem before_reverse {X Y : α} {l : List α} (h : Before X Y l) :
    Before Y X l.reverse := by
  obtain ⟨p, q, r, rfl⟩ := h
  exact ⟨r.reverse, q.reverse, p.reverse, by simp⟩

/-- Ordering of the two siblings `X < Y` in the loop state: once `Y` is
expanded, `X` was expanded earlier; while `Y` is waiting in the frontier,
`X` is either already expanded or ahead of `Y` in the frontier. -/
def GoodXY (X Y : α) (st : SearchState α) : Prop :=
  (Y ∈ st.expansions → Before X Y st.expansions) ∧
  (Y ∉ st.expansions → Y ∈ st.frontier →
    X ∈ st.expansions ∨ Before X Y st.frontier)

theorem GoodXY_transfer (g : Graph α) (s X Y current : α) (rest : List α)
    (st st3 : SearchState α) (hm : InvM g s st)
    (hfr : st.frontier = current :: rest)
    (hXv : X ∈ st.visited) (hYv : Y ∈ st.visited) (hXY : X ≠ Y)
    (h3exp : st3.expansions = st.expansions ++ [current])
    (h3fr : ∀ a, a ∈ st3.frontier → a ∈ rest ∨ a ∉ st.visited)
    (h3before : Before X Y rest → Before X Y st3.frontier)
    (hGood : GoodXY X Y st) : GoodXY X Y st3 := by
  have hnd : (st.expansions ++ current :: rest).Nodup := by
    rw [← hfr]; exact hm.nd
  obtain ⟨hndE, hndF, hdisj⟩ := List.nodup_append.1 hnd
  have hcE : current ∉ st.expansions := fun hc =>
    hdisj hc (List.mem_cons_self _ _)
  have hcR : current ∉ rest := (List.nodup_cons.1 hndF).1
  constructor
  · intro hYE3
    rw [h3exp] at hYE3 ⊢
    rcases List.mem_append.1 hYE3 with hYE | hYc
    · exact (hGood.1 hYE).append_right _
    · rw [List.mem_singleton] at hYc
      subst hYc
      have hYE : Y ∉ st.expansions := hcE
      have hYf : Y ∈ st.frontier := by rw [hfr]; exact List.mem_cons_self _ _
      rcases hGood.2 hYE hYf with hXE | hbef
      · exact before_append_singleton hXE
      · exfalso
        rw [hfr] at hbef
        rcases before_cons_split hbef with ⟨h1, h2⟩ | hbef2
        · exact hXY (h1 ▸ rfl)
        · exact hcR (before_mem_right hbef2)
  · intro hYE3 hYf3
    have hYrest : Y ∈ rest := by
      rcases h3fr Y hYf3 with h1 | h1
      · exact h1
      · exact absurd hYv h1
    have hYE : Y ∉ st.expansions := fun hc =>
      hYE3 (by rw [h3exp]; exact List.mem_append_left _ hc)
    have hYf : Y ∈ st.frontier := by rw [hfr]; exact List.mem_cons_of_mem _ hYrest
    rcases hGood.2 hYE hYf with hXE | hbef
    · exact Or.inl (by rw [h3exp]; exact List.mem_append_left _ hXE)
    · rw [hfr] at hbef
      rcases before_cons_split hbef with ⟨h1, -⟩ | hbef2
      · refine Or.inl ?_
        rw [h3exp, ← h1]
        simp
      · exact Or.inr (h3before hbef2)

theorem GoodXY_establish_bfs (g : Graph α) (s X Y current : α) (rest : List α)
    (st : SearchState α) (hm : InvM g s st)
    (hfr : st.frontier = current :: rest)
    (hX : X ∈ successors g current) (hY : Y ∈ successors g current)
    (hXv : X ∉ st.visited) (hYv : Y ∉ st.visited) (hlt : X < Y) :
    GoodXY X Y (bfsExpand g current (popState current rest st)) ∧
    X ∈ (bfsExpand g current (popState current rest st)).visited ∧
    Y ∈ (bfsExpand g current (popState current rest st)).visited ∧
    Before X Y (bfsExpand g current (popState current rest st)).frontier := by
  have hcv : current ∈ st.visited :=
    hm.fvis current (by rw [hfr]; exact List.mem_cons_self _ _)
  have hXY : X ≠ Y := ne_of_lt hlt
  have hXF : X ∈ freshList st.visited (sortAsc (successors g current)) :=
    mem_freshList (sortAsc_mem.2 hX) hXv
  have hYF : Y ∈ freshList st.visited (sortAsc (successors g current)) :=
    mem_freshList (sortAsc_mem.2 hY) hYv
  have hpw : (freshList st.visited (sortAsc (successors g current))).Pairwise
      (· ≤ ·) :=
    List.Pairwise.sublist (freshList_sublist _ _) (sortAsc_pairwise _)
  have hbefF : Before X Y (freshList st.visited (sortAsc (successors g current))) :=
    before_of_pairwise hpw hXF hYF hXY (not_le.2 hlt)
  have hfr3 : (bfsExpand g current (popState current rest st)).frontier =
      rest ++ freshList st.visited (sortAsc (successors g current)) := by
    rw [bfsExpand_fields]; rfl
  have hvis3 : (bfsExpand g current (popState current rest st)).visited =
      st.visited ∪ (freshList st.visited (sortAsc (successors g current))).toFinset := by
    rw [bfsExpand_fields]; rfl
  have hexp3 : (bfsExpand g current (popState current rest st)).expansions =
      st.expansions ++ [current] := by
    rw [bfsExpand_fields]; rfl
  refine ⟨⟨?_, ?_⟩, ?_, ?_, ?_⟩
  · intro hYE3
    exfalso
    rw [hexp3] at hYE3
    rcases List.mem_append.1 hYE3 with hYE | hYc
    · exact hYv (hm.evis Y hYE)
    · rw [List.mem_singleton] at hYc
      exact hYv (hYc ▸ hcv)
  · intro _ _
    refine Or.inr ?_
    rw [hfr3]
    exact hbefF.append_left rest
  · rw [hvis3]
    exact Finset.mem_union_right _ (List.mem_toFinset.2 hXF)
  · rw [hvis3]
    exact Finset.mem_union_right _ (List.mem_toFinset.2 hYF)
  · rw [hfr3]
    exact hbefF.append_left rest

theorem GoodXY_establish_dfs (g : Graph α) (s X Y current : α) (rest : List α)
    (st : SearchState α) (hm : InvM g s st)
    (hfr : st.frontier = current :: rest)
    (hX : X ∈ successors g current) (hY : Y ∈ successors g current)
    (hXv : X ∉ st.visited) (hYv : Y ∉ st.visited) (hlt : X < Y) :
    GoodXY X Y (dfsExpand g current (popState current rest st)) ∧
    X ∈ (dfsExpand g current (popState current rest st)).visited ∧
    Y ∈ (dfsExpand g current (popState current rest st)).visited ∧
    Before X Y (dfsExpand g current (popState current rest st)).frontier := by
  have hcv : current ∈ st.visited :=
    hm.fvis current (by rw [hfr]; exact List.mem_cons_self _ _)
  have hXY : X ≠ Y := ne_of_lt hlt
  have hXF : X ∈ freshList st.visited (sortDesc (successors g current)) :=
    mem_freshList (sortDesc_mem.2 hX) hXv
  have hYF : Y ∈ freshList st.visited (sortDesc (successors g current)) :=
    mem_freshList (sortDesc_mem.2 hY) hYv
  have hpw : (freshList st.visited (sortDesc (successors g current))).Pairwise
      (fun a b => b ≤ a) :=
    List.Pairwise.sublist (freshList_sublist _ _) (sortDesc_pairwise _)
  have hbefF : Before Y X (freshList st.visited (sortDesc (successors g current))) :=
    before_of_pairwise hpw hYF hXF (Ne.symm hXY) (not_le.2 hlt)
  have hbefR : Before X Y
      (freshList st.visited (sortDesc (successors g current))).reverse :=
    before_reverse hbefF
  have hfr3 : (dfsExpand g current (popState current rest st)).frontier =
      (freshList st.visited (sortDesc (successors g current))).reverse ++ rest := by
    rw [dfsExpand_fields]; rfl
  have hvis3 : (dfsExpand g current (popState current rest st)).visited =
      st.visited ∪ (freshList st.visited (sortDesc (successors g current))).toFinset := by
    rw [dfsExpand_fields]; rfl
  have hexp3 : (dfsExpand g current (popState current rest st)).expansions =
      st.expansions ++ [current] := by
    rw [dfsExpand_fields]; rfl
  refine ⟨⟨?_, ?_⟩, ?_, ?_, ?_⟩
  · intro hYE3
    exfalso
    rw [hexp3] at hYE3
    rcases List.mem_append.1 hYE3 with hYE | hYc
    · exact hYv (hm.evis Y hYE)
    · rw [List.mem_singleton] at hYc
      exact hYv (hYc ▸ hcv)
  · intro _ _
    refine Or.inr ?_
    rw [hfr3]
    exact hbefR.append_right rest
  · rw [hvis3]
    exact Finset.mem_union_right _ (List.mem_toFinset.2 hXF)
  · rw [hvis3]
    exact Finset.mem_union_right _ (List.mem_toFinset.2 hYF)
  · rw [hfr3]
    exact hbefR.append_right rest

theorem bfsLoop_good (g : Graph α) (s goal X Y : α) (hXY : X ≠ Y) :
    ∀ (fuel : Nat) (last l' : Option α) (st st' : SearchState α),
      InvM g s st → X ∈ st.visited → Y ∈ st.visited → GoodXY X Y st →
      bfsLoop g goal fuel last st = some (l', st') →
      Y ∈ st'.expansions → Before X Y st'.expansions := by
  intro fuel
  induction fuel with
  | zero =>
    intro last l' st st' _ _ _ _ h
    rw [bfsLoop_zero] at h
    exact absurd h (by simp)
  | succ fuel ih =>
    intro last l' st st' hm hXv hYv hGood h
    cases hfr : st.frontier with
    | nil =>
      rw [bfsLoop_nil g goal fuel last st hfr] at h
      simp only [Option.some.injEq, Prod.mk.injEq] at h
      obtain ⟨-, rfl⟩ := h
      exact hGood.1
    | cons current rest =>
      rw [bfsLoop_cons g goal fuel last st current rest hfr] at h
      by_cases hg : current = goal
      · rw [if_pos hg] at h
        simp only [Option.some.injEq, Prod.mk.injEq] at h
        obtain ⟨-, rfl⟩ := h
        have hGood2 := GoodXY_transfer g s X Y current rest st
          (popState current rest st) hm hfr hXv hYv hXY rfl
          (fun a ha => Or.inl ha) (fun hb => hb) hGood
        exact hGood2.1
      · rw [if_neg hg] at h
        have hm3 := InvM_bfsExpand g s current rest st hm hfr
        have hfr3 : (bfsExpand g current (popState current rest st)).frontier =
            rest ++ freshList st.visited (sortAsc (successors g current)) := by
          rw [bfsExpand_fields]; rfl
        have hvis3 : (bfsExpand g current (popState current rest st)).visited =
            st.visited ∪
              (freshList st.visited (sortAsc (successors g current))).toFinset := by
          rw [bfsExpand_fields]; rfl
        have hexp3 : (bfsExpand g current (popState current rest st)).expansions =
            st.expansions ++ [current] := by
          rw [bfsExpand_fields]; rfl
        have hGood3 := GoodXY_transfer g s X Y current rest st
          (bfsExpand g current (popState current rest st)) hm hfr hXv hYv hXY hexp3
          (by
            intro a ha
            rw [hfr3] at ha
            rcases List.mem_append.1 ha with h1 | h1
            · exact Or.inl h1
            · exact Or.inr (not_vis_of_mem_freshList h1))
          (by
            intro hb
            rw [hfr3]
            exact hb.append_right _)
          hGood
        refine ih (some current) l' _ st' hm3 ?_ ?_ hGood3 h
        · rw [hvis3]; exact Finset.mem_union_left _ hXv
        · rw [hvis3]; exact Finset.mem_union_left _ hYv

theorem dfsLoop_good (g : Graph α) (s goal X Y : α) (hXY : X ≠ Y) :
    ∀ (fuel : Nat) (last l' : Option α) (st st' : SearchState α),
      InvM g s st → X ∈ st.visited → Y ∈ st.visited → GoodXY X Y st →
      dfsLoop g goal fuel last st = some (l', st') →
      Y ∈ st'.expansions → Before X Y st'.expansions := by
  intro fuel
  induction fuel with
  | zero =>
    intro last l' st st' _ _ _ _ h
    rw [dfsLoop_zero] at h
    exact absurd h (by simp)
  | succ fuel ih =>
    intro last l' st st' hm hXv hYv hGood h
    cases hfr : st.frontier with
    | nil =>
      rw [dfsLoop_nil g goal fuel last st hfr] at h
      simp only [Option.some.injEq, Prod.mk.injEq] at h
      obtain ⟨-, rfl⟩ := h
      exact hGood.1
    | cons current rest =>
      rw [dfsLoop_cons g goal fuel last st current rest hfr] at h
      by_cases hg : current = goal
      · rw [if_pos hg] at h
        simp only [Option.some.injEq, Prod.mk.injEq] at h
        obtain ⟨-, rfl⟩ := h
        have hGood2 := GoodXY_transfer g s X Y current rest st
          (popState current rest st) hm hfr hXv hYv hXY rfl
          (fun a ha => Or.inl ha) (fun hb => hb) hGood
        exact hGood2.1
      · rw [if_neg hg] at h
        have hm3 := InvM_dfsExpand g s current rest st hm hfr
        have hfr3 : (dfsExpand g current (popState current rest st)).frontier =
            (freshList st.visited (sortDesc (successors g current))).reverse ++
              rest := by
          rw [dfsExpand_fields]; rfl
        have hvis3 : (dfsExpand g current (popState current rest st)).visited =
            st.visited ∪
              (freshList st.visited (sortDesc (successors g current))).toFinset := by
          rw [dfsExpand_fields]; rfl
        have hexp3 : (dfsExpand g current (popState current rest st)).expansions =
            st.expansions ++ [current] := by
          rw [dfsExpand_fields]; rfl
        have hGood3 := GoodXY_transfer g s X Y current rest st
          (dfsExpand g current (popState current rest st)) hm hfr hXv hYv hXY hexp3
          (by
            intro a ha
            rw [hfr3] at ha
            rcases List.mem_append.1 ha with h1 | h1
            · exact Or.inr (not_vis_of_mem_freshList (List.mem_reverse.1 h1))
            · exact Or.inl h1)
          (by
            intro hb
            rw [hfr3]
            exact hb.append_left _)
          hGood
        refine ih (some current) l' _ st' hm3 ?_ ?_ hGood3 h
        · rw [hvis3]; exact Finset.mem_union_left _ hXv
        · rw [hvis3]; exact Finset.mem_union_left _ hYv

/-! ## Remaining helpers for the claims -/

theorem length_le_card {l : List α} {v : Finset α} (hnd : l.Nodup)
    (hsub : ∀ a ∈ l, a ∈ v) : l.length ≤ v.card := by
  rw [← List.toFinset_card_of_nodup hnd]
  exact Finset.card_le_card fun x hx => hsub x (List.mem_toFinset.1 hx)

theorem visited_subset_reachable {g : Graph α} {s : α} {st : SearchState α}
    (h : InvM g s st) : ∀ a ∈ st.visited, a ∈ reachableSet g s := by
  intro a ha
  obtain ⟨la, hla⟩ := exists_level_of_vis h ha
  exact mem_reachableSet_iff.2 ⟨la, h.lreach a la hla⟩

theorem bfsRun_eq_of (g : Graph α) (s goal : α) (x : Option α × SearchState α)
    (h : bfsLoop g goal (searchFuel g s) none (initState s) = some x) :
    bfsRun g s goal = x := by
  have h2 := bfsRun_spec g s goal
  rw [h] at h2
  exact (Option.some.inj h2).symm

theorem dfsRun_eq_of (g : Graph α) (s goal : α) (x : Option α × SearchState α)
    (h : dfsLoop g goal (searchFuel g s) none (initState s) = some x) :
    dfsRun g s goal = x := by
  have h2 := dfsRun_spec g s goal
  rw [h] at h2
  exact (Option.some.inj h2).symm

theorem bfsRun_exp_facts (g : Graph α) (s goal : α) :
    (bfsRun g s goal).2.expansions.Nodup ∧
    (∀ a ∈ (bfsRun g s goal).2.expansions, a ∈ (bfsRun g s goal).2.visited) ∧
    (bfsRun g s goal).2.expOrder = (bfsRun g s goal).2.expansions.length ∧
    (∀ a ∈ (bfsRun g s goal).2.visited, a ∈ reachableSet g s) := by
  rcases bfsRun_end g s goal (InvM g s) (InvM_init g s)
    (fun current rest st h hfr _ => InvM_bfsExpand g s current rest st h hfr) with
    ⟨hP, hfrE, -⟩ | ⟨stp, rest, hP, hfrP, heq, -⟩
  · have hnd := hP.nd
    rw [hfrE] at hnd
    simp only [List.append_nil] at hnd
    exact ⟨hnd, hP.evis, hP.eord, visited_subset_reachable hP⟩
  · have hexp : (bfsRun g s goal).2.expansions = stp.expansions ++ [goal] := by
      rw [heq]; rfl
    have hvis : (bfsRun g s goal).2.visited = stp.visited := by rw [heq]; rfl
    have heo : (bfsRun g s goal).2.expOrder = stp.expOrder + 1 := by rw [heq]; rfl
    have hndA : (stp.expansions ++ goal :: rest).Nodup := by
      rw [← hfrP]; exact hP.nd
    refine ⟨?_, ?_, ?_, ?_⟩
    · rw [hexp]
      refine List.Nodup.sublist ?_ hndA
      exact List.Sublist.append_left ((List.nil_sublist rest).cons₂ goal) _
    · intro a ha
      rw [hexp] at ha
      rw [hvis]
      rcases List.mem_append.1 ha with h1 | h1
      · exact hP.evis a h1
      · rw [List.mem_singleton] at h1
        subst h1
        exact hP.fvis a (by rw [hfrP]; exact List.mem_cons_self _ _)
    · rw [heo, hexp, hP.eord]
      simp
    · intro a ha
      rw [hvis] at ha
      exact visited_subset_reachable hP a ha

theorem dfsRun_exp_facts (g : Graph α) (s goal : α) :
    (dfsRun g s goal).2.expansions.Nodup ∧
    (∀ a ∈ (dfsRun g s goal).2.expansions, a ∈ (dfsRun g s goal).2.visited) ∧
    (dfsRun g s goal).2.expOrder = (dfsRun g s goal).2.expansions.length ∧
    (∀ a ∈ (dfsRun g s goal).2.visited, a ∈ reachableSet g s) := by
  rcases dfsRun_end g s goal (InvM g s) (InvM_init g s)
    (fun current rest st h hfr _ => InvM_dfsExpand g s current rest st h hfr) with
    ⟨hP, hfrE, -⟩ | ⟨stp, rest, hP, hfrP, heq, -⟩
  · have hnd := hP.nd
    rw [hfrE] at hnd
    simp only [List.append_nil] at hnd
    exact ⟨hnd, hP.evis, hP.eord, visited_subset_reachable hP⟩
  · have hexp : (dfsRun g s goal).2.expansions = stp.expansions ++ [goal] := by
      rw [heq]; rfl
    have hvis : (dfsRun g s goal).2.visited = stp.visited := by rw [heq]; rfl
    have heo : (dfsRun g s goal).2.expOrder = stp.expOrder + 1 := by rw [heq]; rfl
    have hndA : (stp.expansions ++ goal :: rest).Nodup := by
      rw [← hfrP]; exact hP.nd
    refine ⟨?_, ?_, ?_, ?_⟩
    · rw [hexp]
      refine List.Nodup.sublist ?_ hndA
      exact List.Sublist.append_left ((List.nil_sublist rest).cons₂ goal) _
    · intro a ha
      rw [hexp] at ha
      rw [hvis]
      rcases List.mem_append.1 ha with h1 | h1
      · exact hP.evis a h1
      · rw [List.mem_singleton] at h1
        subst h1
        exact hP.fvis a (by rw [hfrP]; exact List.mem_cons_self _ _)
    · rw [heo, hexp, hP.eord]
      simp
    · intro a ha
      rw [hvis] at ha
      exact visited_subset_reachable hP a ha

theorem chain'_getElem? {β2 : Type} {R : β2 → β2 → Prop} :
    ∀ {l : List β2}, List.Chain' R l → ∀ (i : Nat) {a b : β2},
      l[i]? = some a → l[i + 1]? = some b → R a b := by
  intro l
  induction l with
  | nil =>
    intro _ i a b ha _
    simp at ha
  | cons x t ih =>
    intro hch i a b ha hb
    cases i with
    | zero =>
      simp only [List.getElem?_cons_zero, Option.some.injEq] at ha
      subst ha
      rw [List.getElem?_cons_succ] at hb
      have hb2 : t[0]? = some b := hb
      cases t with
      | nil => simp at hb2
      | cons y t2 =>
        simp only [List.getElem?_cons_zero, Option.some.injEq] at hb2
        subst hb2
        exact (List.chain'_cons.1 hch).1
    | succ i =>
      rw [List.getElem?_cons_succ] at ha hb
      exact ih hch.tail i ha hb

theorem path_valid_bfs (g : Graph α) (s goal : α)
    (hc : (bfsRun g s goal).1 = some goal) :
    (reconstructPath (bfsRun g s goal).2.parent goal).head? = some s ∧
    (reconstructPath (bfsRun g s goal).2.parent goal).getLast? = some goal ∧
    List.Chain' (fun u v => v ∈ successors g u)
      (reconstructPath (bfsRun g s goal).2.parent goal) := by
  rcases bfsRun_end g s goal (InvM g s) (InvM_init g s)
    (fun current rest st h hfr _ => InvM_bfsExpand g s current rest st h hfr) with
    ⟨-, -, hl⟩ | ⟨stp, rest, hP, hfrP, heq, -⟩
  · exfalso
    rcases hl with h1 | ⟨c, h1, -, hcg⟩
    · rw [hc] at h1; exact absurd h1 (by simp)
    · rw [hc] at h1
      exact hcg (Option.some.inj h1.symm)
  · have hpar : (bfsRun g s goal).2.parent = stp.parent := by rw [heq]; rfl
    have hgv : goal ∈ stp.visited :=
      hP.fvis goal (by rw [hfrP]; exact List.mem_cons_self _ _)
    obtain ⟨la, hla⟩ := exists_level_of_vis hP hgv
    rw [hpar]
    exact reconstructPath_spec g s stp hP goal la hla

theorem path_valid_dfs (g : Graph α) (s goal : α)
    (hc : (dfsRun g s goal).1 = some goal) :
    (reconstructPath (dfsRun g s goal).2.parent goal).head? = some s ∧
    (reconstructPath (dfsRun g s goal).2.parent goal).getLast? = some goal ∧
    List.Chain' (fun u v => v ∈ successors g u)
      (reconstructPath (dfsRun g s goal).2.parent goal) := by
  rcases dfsRun_end g s goal (InvM g s) (InvM_init g s)
    (fun current rest st h hfr _ => InvM_dfsExpand g s current rest st h hfr) with
    ⟨-, -, hl⟩ | ⟨stp, rest, hP, hfrP, heq, -⟩
  · exfalso
    rcases hl with h1 | ⟨c, h1, -, hcg⟩
    · rw [hc] at h1; exact absurd h1 (by simp)
    · rw [hc] at h1
      exact hcg (Option.some.inj h1.symm)
  · have hpar : (dfsRun g s goal).2.parent = stp.parent := by rw [heq]; rfl
    have hgv : goal ∈ stp.visited :=
      hP.fvis goal (by rw [hfrP]; exact List.mem_cons_self _ _)
    obtain ⟨la, hla⟩ := exists_level_of_vis hP hgv
    rw [hpar]
    exact reconstructPath_spec g s stp hP goal la hla

/-! ## The claims -/

/-- C1, amended: when the goal is reachable from the start, the level
map returned by `breadth_first_search` assigns the goal its true
minimum edge-count distance, and every node *present in the returned
level map* is assigned its true minimum edge-count distance.  (The
original quantification over all reachable nodes fails because the loop
stops as soon as the goal is dequeued, leaving reachable but
undiscovered nodes out of the map — see the counterexample.) -/
theorem claim_C1 (g : Graph α) (s goal : α)
    (hreach : goal ∈ reachableSet g s) :
    (∃ d, alookup (breadth_first_search g s goal).2.2 goal = some d ∧
      IsDistance g s goal d) ∧
    (∀ a la, alookup (breadth_first_search g s goal).2.2 a = some la →
      IsDistance g s a la) := by
  obtain ⟨hlex, hgoal, hiff⟩ := bfsRun_level_exact g s goal
  have hlv : (breadth_first_search g s goal).2.2 = (bfsRun g s goal).2.level := rfl
  rw [hlv]
  have hgv : goal ∈ (bfsRun g s goal).2.visited :=
    hgoal (mem_reachableSet_iff.1 hreach)
  have hsome := (hiff goal).2 hgv
  refine ⟨?_, hlex⟩
  cases hx : alookup (bfsRun g s goal).2.level goal with
  | none => rw [hx] at hsome; simp at hsome
  | some d => exact ⟨d, rfl, hlex goal d hx⟩

/-- C1 witness at the graph `0 → 1` with start and goal `0`. -/
theorem claim_C1_witness :
    (0 : Nat) ∈ reachableSet [(0, [1])] 0 ∧
    ((∃ d, alookup (breadth_first_search [(0, [1])] 0 0).2.2 0 = some d ∧
      IsDistance [(0, [1])] 0 0 d) ∧
    (∀ a la, alookup (breadth_first_search [(0, [1])] 0 0).2.2 a = some la →
      IsDistance [(0, [1])] 0 a la)) :=
  ⟨by decide, claim_C1 [(0, [1])] 0 0 (by decide)⟩

/-- C1 counterexample to the claim as stated: on the graph `0 → 1` with
start = goal = 0, node 1 is reachable with minimum distance 1, yet the
returned level map has no entry for it (the loop stops at the first
dequeue, before node 1 is discovered). -/
theorem claim_C1_counterexample :
    IsDistance [(0, [1])] 0 1 1 ∧
    alookup (breadth_first_search [(0, [1])] 0 0).2.2 1 = none := by
  constructor <;> decide

/-- C2: if the node about to be expanded has two undiscovered successors
`X < Y`, then BFS enqueues `X` ahead of `Y` and DFS leaves `X` above `Y`
on the stack; and in the rest of either search, whenever `Y` is
expanded, `X` was expanded strictly earlier. -/
theorem claim_C2 (g : Graph α) (s goal X Y current : α) (rest : List α)
    (st : SearchState α) (hm : InvM g s st)
    (hfr : st.frontier = current :: rest)
    (hX : X ∈ successors g current) (hY : Y ∈ successors g current)
    (hXv : X ∉ st.visited) (hYv : Y ∉ st.visited) (hlt : X < Y) :
    Before X Y (bfsExpand g current (popState current rest st)).frontier ∧
    Before X Y (dfsExpand g current (popState current rest st)).frontier ∧
    (∀ (fuel : Nat) (last l' : Option α) (st' : SearchState α),
      bfsLoop g goal fuel last st = some (l', st') →
      Y ∈ st'.expansions → Before X Y st'.expansions) ∧
    (∀ (fuel : Nat) (last l' : Option α) (st' : SearchState α),
      dfsLoop g goal fuel last st = some (l', st') →
      Y ∈ st'.expansions → Before X Y st'.expansions) := by
  obtain ⟨hGoodB, hXvB, hYvB, hBefB⟩ :=
    GoodXY_establish_bfs g s X Y current rest st hm hfr hX hY hXv hYv hlt
  obtain ⟨hGoodD, hXvD, hYvD, hBefD⟩ :=
    GoodXY_establish_dfs g s X Y current rest st hm hfr hX hY hXv hYv hlt
  have hXY : X ≠ Y := ne_of_lt hlt
  refine ⟨hBefB, hBefD, ?_, ?_⟩
  · intro fuel last l' st' h
    cases fuel with
    | zero => rw [bfsLoop_zero] at h; exact absurd h (by simp)
    | succ fuel =>
      rw [bfsLoop_cons g goal fuel last st current rest hfr] at h
      by_cases hg : current = goal
      · rw [if_pos hg] at h
        simp only [Option.some.injEq, Prod.mk.injEq] at h
        obtain ⟨-, rfl⟩ := h
        intro hYE
        exfalso
        have hYE2 : Y ∈ st.expansions ++ [current] := hYE
        rcases List.mem_append.1 hYE2 with h1 | h1
        · exact hYv (hm.evis Y h1)
        · rw [List.mem_singleton] at h1
          subst h1
          exact hYv (hm.fvis Y (by rw [hfr]; exact List.mem_cons_self _ _))
      · rw [if_neg hg] at h
        exact bfsLoop_good g s goal X Y hXY fuel (some current) l' _ st'
          (InvM_bfsExpand g s current rest st hm hfr) hXvB hYvB hGoodB h
  · intro fuel last l' st' h
    cases fuel with
    | zero => rw [dfsLoop_zero] at h; exact absurd h (by simp)
    | succ fuel =>
      rw [dfsLoop_cons g goal fuel last st current rest hfr] at h
      by_cases hg : current = goal
      · rw [if_pos hg] at h
        simp only [Option.some.injEq, Prod.mk.injEq] at h
        obtain ⟨-, rfl⟩ := h
        intro hYE
        exfalso
        have hYE2 : Y ∈ st.expansions ++ [current] := hYE
        rcases List.mem_append.1 hYE2 with h1 | h1
        · exact hYv (hm.evis Y h1)
        · rw [List.mem_singleton] at h1
          subst h1
          exact hYv (hm.fvis Y (by rw [hfr]; exact List.mem_cons_self _ _))
      · rw [if_neg hg] at h
        exact dfsLoop_good g s goal X Y hXY fuel (some current) l' _ st'
          (InvM_dfsExpand g s current rest st hm hfr) hXvD hYvD hGoodD h

/-- C2 witness: expanding node 0 of the graph `0 → {1, 2}` from its
initial state, with fresh siblings 1 < 2. -/
theorem claim_C2_witness :
    InvM [(0, [1, 2])] 0 (initState 0) ∧
    (1 : Nat) ∈ successors [(0, [1, 2])] 0 ∧
    (2 : Nat) ∈ successors [(0, [1, 2])] 0 ∧
    (1 : Nat) ∉ (initState (0 : Nat)).visited ∧
    (2 : Nat) ∉ (initState (0 : Nat)).visited ∧
    (1 : Nat) < 2 ∧
    (Before 1 2 (bfsExpand [(0, [1, 2])] 0 (popState 0 [] (initState 0))).frontier ∧
     Before 1 2 (dfsExpand [(0, [1, 2])] 0 (popState 0 [] (initState 0))).frontier ∧
     (∀ (fuel : Nat) (last l' : Option Nat) (st' : SearchState Nat),
       bfsLoop [(0, [1, 2])] 5 fuel last (initState 0) = some (l', st') →
       2 ∈ st'.expansions → Before 1 2 st'.expansions) ∧
     (∀ (fuel : Nat) (last l' : Option Nat) (st' : SearchState Nat),
       dfsLoop [(0, [1, 2])] 5 fuel last (initState 0) = some (l', st') →
       2 ∈ st'.expansions → Before 1 2 st'.expansions)) :=
  ⟨InvM_init _ _, by decide, by decide, by decide, by decide, by decide,
   claim_C2 [(0, [1, 2])] 0 5 1 2 0 [] (initState 0) (InvM_init _ _) rfl
     (by decide) (by decide) (by decide) (by decide) (by decide)⟩

/-- C3: every non-empty path returned by either search starts at the
start node, ends at the goal node, and each consecutive pair (u, v)
satisfies that v is in the graph's successor list of u. -/
theorem claim_C3 (g : Graph α) (s goal : α) :
    ((breadth_first_search g s goal).1 ≠ [] →
      (breadth_first_search g s goal).1.head? = some s ∧
      (breadth_first_search g s goal).1.getLast? = some goal ∧
      List.Chain' (fun u v => v ∈ successors g u)
        (breadth_first_search g s goal).1) ∧
    ((depth_first_search g s goal).1 ≠ [] →
      (depth_first_search g s goal).1.head? = some s ∧
      (depth_first_search g s goal).1.getLast? = some goal ∧
      List.Chain' (fun u v => v ∈ successors g u)
        (depth_first_search g s goal).1) := by
  constructor
  · intro hne
    by_cases hc : (bfsRun g s goal).1 = some goal
    · have hpath : (breadth_first_search g s goal).1 =
          reconstructPath (bfsRun g s goal).2.parent goal := by
        rw [breadth_first_search_eq]
        simp [hc]
      rw [hpath]
      exact path_valid_bfs g s goal hc
    · exfalso
      apply hne
      rw [breadth_first_search_eq]
      simp [hc]
  · intro hne
    by_cases hc : (dfsRun g s goal).1 = some goal
    · have hpath : (depth_first_search g s goal).1 =
          reconstructPath (dfsRun g s goal).2.parent goal := by
        rw [depth_first_search_eq]
        simp [hc]
      rw [hpath]
      exact path_valid_dfs g s goal hc
    · exfalso
      apply hne
      rw [depth_first_search_eq]
      simp [hc]

/-- C3 witness on the graph `0 → 1` searched from 0 to 1. -/
theorem claim_C3_witness :
    (breadth_first_search [(0, [1])] 0 1).1.head? = some 0 ∧
    (breadth_first_search [(0, [1])] 0 1).1.getLast? = some 1 ∧
    List.Chain' (fun u v => v ∈ successors [(0, [1])] u)
      (breadth_first_search [(0, [1])] 0 1).1 :=
  (claim_C3 [(0, [1])] 0 1).1 (by decide)

/-- C4 (code bug): on the fixed graph from start A to goal F, the trace
row of step 2 (the expansion of B) records the frontier as
['D','C','D','E','G'], which contains 'D' twice; a FIFO queue never
holds duplicates (its content there is [D, C, E, G]), and the ascending
rendering of that queue would be ['C','D','E','G'].  The recorded field
is `new_frontier ++ sorted(queue)`, duplicating the residual queue. -/
theorem claim_C4_trace_bug :
    ((breadth_first_search GRAPH 'A' 'F').2.1.map fun t => t.frontier)[2]? =
      some ['D', 'C', 'D', 'E', 'G'] ∧
    ¬ (['D', 'C', 'D', 'E', 'G'] : List Char).Nodup ∧
    sortAsc ['D', 'C', 'E', 'G'] = ['C', 'D', 'E', 'G'] := by
  refine ⟨by decide, by decide, by decide⟩

/-- C5: both loops terminate within the proved fuel bound, and the
number of expansions (`expansion_order`, equal to the length of the
expansion list) never exceeds the number of nodes reachable from the
start; no node is expanded twice. -/
theorem claim_C5 (g : Graph α) (s goal : α) :
    (bfsLoop g goal (searchFuel g s) none (initState s)).isSome ∧
    (dfsLoop g goal (searchFuel g s) none (initState s)).isSome ∧
    (bfsRun g s goal).2.expansions.Nodup ∧
    (bfsRun g s goal).2.expOrder = (bfsRun g s goal).2.expansions.length ∧
    (bfsRun g s goal).2.expansions.length ≤ (reachableSet g s).card ∧
    (dfsRun g s goal).2.expansions.Nodup ∧
    (dfsRun g s goal).2.expOrder = (dfsRun g s goal).2.expansions.length ∧
    (dfsRun g s goal).2.expansions.length ≤ (reachableSet g s).card := by
  obtain ⟨hbn, hbv, hbe, hbr⟩ := bfsRun_exp_facts g s goal
  obtain ⟨hdn, hdv, hde, hdr⟩ := dfsRun_exp_facts g s goal
  exact ⟨bfsLoop_run_isSome g s goal, dfsLoop_run_isSome g s goal,
    hbn, hbe, length_le_card hbn fun a ha => hbr a (hbv a ha),
    hdn, hde, length_le_card hdn fun a ha => hdr a (hdv a ha)⟩

/-- C6: when the goal is unreachable from the start, both searches
return the empty path after exhausting the frontier; the trace rows are
numbered 0, 1, 2, … and list exactly the start sentinel followed by the
expansions in order; and the level map has an entry exactly for each
discovered node — in particular none for the goal. -/
theorem claim_C6 (g : Graph α) (s goal : α) (h : goal ∉ reachableSet g s) :
    (breadth_first_search g s goal).1 = [] ∧
    (depth_first_search g s goal).1 = [] ∧
    (bfsRun g s goal).2.frontier = [] ∧
    (dfsRun g s goal).2.frontier = [] ∧
    (∀ a, (alookup (breadth_first_search g s goal).2.2 a).isSome ↔
      a ∈ (bfsRun g s goal).2.visited) ∧
    (∀ a, (alookup (depth_first_search g s goal).2.2 a).isSome ↔
      a ∈ (dfsRun g s goal).2.visited) ∧
    alookup (breadth_first_search g s goal).2.2 goal = none ∧
    alookup (depth_first_search g s goal).2.2 goal = none ∧
    (breadth_first_search g s goal).2.1.map (fun t => t.expansion) =
      none :: (bfsRun g s goal).2.expansions.map some ∧
    (breadth_first_search g s goal).2.1.map (fun t => t.step) =
      List.range (breadth_first_search g s goal).2.1.length ∧
    (depth_first_search g s goal).2.1.map (fun t => t.expansion) =
      none :: (dfsRun g s goal).2.expansions.map some ∧
    (depth_first_search g s goal).2.1.map (fun t => t.step) =
      List.range (depth_first_search g s goal).2.1.length := by
  have hbfs := bfsRun_end g s goal (InvM g s) (InvM_init g s)
    (fun current rest st h2 hfr _ => InvM_bfsExpand g s current rest st h2 hfr)
  have hdfs := dfsRun_end g s goal (InvM g s) (InvM_init g s)
    (fun current rest st h2 hfr _ => InvM_dfsExpand g s current rest st h2 hfr)
  rcases hbfs with ⟨hPb, hfrb, hlb⟩ | ⟨stp, rest, hP, hfrP, -, -⟩
  · rcases hdfs with ⟨hPd, hfrd, hld⟩ | ⟨stp, rest, hP, hfrP, -, -⟩
    · have hnb : (bfsRun g s goal).1 ≠ some goal := by
        rcases hlb with h1 | ⟨c, h1, -, hcg⟩
        · rw [h1]; simp
        · rw [h1]
          intro h2
          exact hcg (Option.some.inj h2)
      have hnd2 : (dfsRun g s goal).1 ≠ some goal := by
        rcases hld with h1 | ⟨c, h1, -, hcg⟩
        · rw [h1]; simp
        · rw [h1]
          intro h2
          exact hcg (Option.some.inj h2)
      have hgb : goal ∉ (bfsRun g s goal).2.visited := fun hg =>
        h (visited_subset_reachable hPb goal hg)
      have hgd : goal ∉ (dfsRun g s goal).2.visited := fun hg =>
        h (visited_subset_reachable hPd goal hg)
      refine ⟨?_, ?_, hfrb, hfrd, hPb.lk, hPd.lk, ?_, ?_, hPb.smap, hPb.snum,
        hPd.smap, hPd.snum⟩
      · rw [breadth_first_search_eq]
        simp [hnb]
      · rw [depth_first_search_eq]
        simp [hnd2]
      · show alookup (bfsRun g s goal).2.level goal = none
        cases hx : alookup (bfsRun g s goal).2.level goal with
        | none => rfl
        | some v =>
          exact absurd ((hPb.lk goal).1 (by rw [hx]; rfl)) hgb
      · show alookup (dfsRun g s goal).2.level goal = none
        cases hx : alookup (dfsRun g s goal).2.level goal with
        | none => rfl
        | some v =>
          exact absurd ((hPd.lk goal).1 (by rw [hx]; rfl)) hgd
    · exfalso
      apply h
      refine visited_subset_reachable hP goal ?_
      exact hP.fvis goal (by rw [hfrP]; exact List.mem_cons_self _ _)
  · exfalso
    apply h
    refine visited_subset_reachable hP goal ?_
    exact hP.fvis goal (by rw [hfrP]; exact List.mem_cons_self _ _)

/-- C6 witness on the empty graph with start 0 and (unreachable) goal 1. -/
theorem claim_C6_witness :
    (1 : Nat) ∉ reachableSet ([] : Graph Nat) 0 ∧
    ((breadth_first_search ([] : Graph Nat) 0 1).1 = [] ∧
     (depth_first_search ([] : Graph Nat) 0 1).1 = [] ∧
     (bfsRun ([] : Graph Nat) 0 1).2.frontier = [] ∧
     (dfsRun ([] : Graph Nat) 0 1).2.frontier = [] ∧
     (∀ a, (alookup (breadth_first_search ([] : Graph Nat) 0 1).2.2 a).isSome ↔
       a ∈ (bfsRun ([] : Graph Nat) 0 1).2.visited) ∧
     (∀ a, (alookup (depth_first_search ([] : Graph Nat) 0 1).2.2 a).isSome ↔
       a ∈ (dfsRun ([] : Graph Nat) 0 1).2.visited) ∧
     alookup (breadth_first_search ([] : Graph Nat) 0 1).2.2 1 = none ∧
     alookup (depth_first_search ([] : Graph Nat) 0 1).2.2 1 = none ∧
     (breadth_first_search ([] : Graph Nat) 0 1).2.1.map (fun t => t.expansion) =
       none :: (bfsRun ([] : Graph Nat) 0 1).2.expansions.map some ∧
     (breadth_first_search ([] : Graph Nat) 0 1).2.1.map (fun t => t.step) =
       List.range (breadth_first_search ([] : Graph Nat) 0 1).2.1.length ∧
     (depth_first_search ([] : Graph Nat) 0 1).2.1.map (fun t => t.expansion) =
       none :: (dfsRun ([] : Graph Nat) 0 1).2.expansions.map some ∧
     (depth_first_search ([] : Graph Nat) 0 1).2.1.map (fun t => t.step) =
       List.range (depth_first_search ([] : Graph Nat) 0 1).2.1.length) :=
  ⟨by decide, claim_C6 ([] : Graph Nat) 0 1 (by decide)⟩

/-- C7: on the fixed 8-node graph with start A and goal F, BFS returns
the path [A, B, G, F], and its level map assigns A=0, B=1, D=1, C=2,
E=2, G=2, F=3. -/
theorem claim_C7 :
    (breadth_first_search GRAPH 'A' 'F').1 = ['A', 'B', 'G', 'F'] ∧
    alookup (breadth_first_search GRAPH 'A' 'F').2.2 'A' = some 0 ∧
    alookup (breadth_first_search GRAPH 'A' 'F').2.2 'B' = some 1 ∧
    alookup (breadth_first_search GRAPH 'A' 'F').2.2 'D' = some 1 ∧
    alookup (breadth_first_search GRAPH 'A' 'F').2.2 'C' = some 2 ∧
    alookup (breadth_first_search GRAPH 'A' 'F').2.2 'E' = some 2 ∧
    alookup (breadth_first_search GRAPH 'A' 'F').2.2 'G' = some 2 ∧
    alookup (breadth_first_search GRAPH 'A' 'F').2.2 'F' = some 3 := by
  decide

/-- C8: searching with start = goal stops at the very first
dequeue/pop: the expansion list is exactly [s], the visited set stays
{s}, the trace is only the initial row, and both searches return the
single-node path [s] with level map {s ↦ 0}. -/
theorem claim_C8 (g : Graph α) (s : α) :
    breadth_first_search g s s =
      ([s], [{ step := 0, expansion := none, levelVal := 0, frontier := [s], visitedSnap := {s} }], [(s, 0)]) ∧
    depth_first_search g s s =
      ([s], [{ step := 0, expansion := none, levelVal := 0, frontier := [s], visitedSnap := {s} }], [(s, 0)]) ∧
    (bfsRun g s s).2.expansions = [s] ∧
    (dfsRun g s s).2.expansions = [s] ∧
    (bfsRun g s s).2.visited = {s} ∧
    (dfsRun g s s).2.visited = {s} := by
  have hwalk : reconstructPath [(s, (none : Option α))] s = [s] := by
    rw [reconstructPath]
    show (walk [(s, none)] (1 + 1) (some s)).reverse = [s]
    rw [walk, alookup_cons, if_pos rfl, option_join_some, walk_none]
    rfl
  have hbloop : bfsLoop g s (searchFuel g s) none (initState s) =
      some (some s, popState s [] (initState s)) := by
    have h1 := bfsLoop_cons g s ((nodes g).card + 1) none (initState s) s [] rfl
    rw [if_pos rfl] at h1
    exact h1
  have hdloop : dfsLoop g s (searchFuel g s) none (initState s) =
      some (some s, popState s [] (initState s)) := by
    have h1 := dfsLoop_cons g s ((nodes g).card + 1) none (initState s) s [] rfl
    rw [if_pos rfl] at h1
    exact h1
  have hbrun := bfsRun_eq_of g s s _ hbloop
  have hdrun := dfsRun_eq_of g s s _ hdloop
  refine ⟨?_, ?_, ?_, ?_, ?_, ?_⟩
  · rw [breadth_first_search_eq, hbrun]
    simp only [if_pos rfl]
    show (reconstructPath [(s, (none : Option α))] s,
      (initState s).steps, [(s, 0)]) = _
    rw [hwalk]
    rfl
  · rw [depth_first_search_eq, hdrun]
    simp only [if_pos rfl]
    show (reconstructPath [(s, (none : Option α))] s,
      (initState s).steps, [(s, 0)]) = _
    rw [hwalk]
    rfl
  · rw [hbrun]; rfl
  · rw [hdrun]; rfl
  · rw [hbrun]; rfl
  · rw [hdrun]; rfl

/-- C9: along the trace of either search, the visited snapshot of each
row is contained in the visited snapshot of the next row (snapshots are
point-in-time copies and the visited set only grows). -/
theorem claim_C9 (g : Graph α) (s goal : α) :
    (∀ (i : Nat) (hi : i + 1 < (breadth_first_search g s goal).2.1.length),
      ((breadth_first_search g s goal).2.1.get ⟨i, by omega⟩).visitedSnap ⊆
      ((breadth_first_search g s goal).2.1.get ⟨i + 1, hi⟩).visitedSnap) ∧
    (∀ (i : Nat) (hi : i + 1 < (depth_first_search g s goal).2.1.length),
      ((depth_first_search g s goal).2.1.get ⟨i, by omega⟩).visitedSnap ⊆
      ((depth_first_search g s goal).2.1.get ⟨i + 1, hi⟩).visitedSnap) := by
  constructor
  · intro i hi
    obtain ⟨st0, hP, -, -, -, hsteps⟩ := bfsRun_invM g s goal
    have htr : (breadth_first_search g s goal).2.1 = st0.steps := hsteps
    have hchain : List.Chain' (fun t u : TraceStep α =>
        t.visitedSnap ⊆ u.visitedSnap) (breadth_first_search g s goal).2.1 := by
      rw [htr]; exact hP.schain
    have h2 := List.chain'_iff_get.1 hchain i (by omega)
    exact h2
  · intro i hi
    obtain ⟨st0, hP, -, -, -, hsteps⟩ := dfsRun_invM g s goal
    have htr : (depth_first_search g s goal).2.1 = st0.steps := hsteps
    have hchain : List.Chain' (fun t u : TraceStep α =>
        t.visitedSnap ⊆ u.visitedSnap) (depth_first_search g s goal).2.1 := by
      rw [htr]; exact hP.schain
    have h2 := List.chain'_iff_get.1 hchain i (by omega)
    exact h2

/-- C9 witness on the graph `0 → 1` searched from 0 to 1: the initial
row's snapshot is contained in the next row's snapshot. -/
theorem claim_C9_witness :
    ((breadth_first_search [(0, [1])] 0 1).2.1.get ⟨0, by decide⟩).visitedSnap ⊆
    ((breadth_first_search [(0, [1])] 0 1).2.1.get ⟨1, by decide⟩).visitedSnap :=
  (claim_C9 [(0, [1])] 0 1).1 0 (by decide)

/-- The invariant claimed by C10, phrased exactly as the claim states
it: the visited set, the parent-map key set and the level-map key set
coincide, and every non-start entry of the parent map records a graph
edge with the level incrementing by one from the parent. -/
def MapsAgree (g : Graph α) (s : α) (st : SearchState α) : Prop :=
  (∀ a, a ∈ st.visited ↔ (alookup st.parent a).isSome) ∧
  (∀ a, a ∈ st.visited ↔ (alookup st.level a).isSome) ∧
  (∀ a p, alookup st.parent a = some (some p) →
    a ∈ successors g p ∧ ∃ lp, alookup st.level p = some lp ∧
      alookup st.level a = some (lp + 1)) ∧
  (∀ a, alookup st.parent a = some none → a = s)

theorem MapsAgree_of_InvM {g : Graph α} {s : α} {st : SearchState α}
    (h : InvM g s st) : MapsAgree g s st :=
  ⟨fun a => (h.pk a).symm, fun a => (h.lk a).symm, h.pedge, h.pstart⟩

/-- C10: the map agreement invariant holds at initialization, is
preserved by every expansion step (including the goal-pop that ends a
successful search) of both searches, and holds of the final state of
both searches. -/
theorem claim_C10 (g : Graph α) (s goal : α) :
    MapsAgree g s (initState s) ∧
    (∀ (current : α) (rest : List α) (st : SearchState α), InvM g s st →
      st.frontier = current :: rest →
      MapsAgree g s (bfsExpand g current (popState current rest st)) ∧
      MapsAgree g s (dfsExpand g current (popState current rest st)) ∧
      MapsAgree g s (popState current rest st)) ∧
    MapsAgree g s (bfsRun g s goal).2 ∧
    MapsAgree g s (dfsRun g s goal).2 := by
  refine ⟨MapsAgree_of_InvM (InvM_init g s), ?_, ?_, ?_⟩
  · intro current rest st hm hfr
    refine ⟨MapsAgree_of_InvM (InvM_bfsExpand g s current rest st hm hfr),
      MapsAgree_of_InvM (InvM_dfsExpand g s current rest st hm hfr), ?_⟩
    have h1 : MapsAgree g s st := MapsAgree_of_InvM hm
    exact h1
  · obtain ⟨st0, hP, hpar, hlev, hvis, -⟩ := bfsRun_invM g s goal
    have h0 := MapsAgree_of_InvM hP
    unfold MapsAgree at h0 ⊢
    rw [hpar, hlev, hvis]
    exact h0
  · obtain ⟨st0, hP, hpar, hlev, hvis, -⟩ := dfsRun_invM g s goal
    have h0 := MapsAgree_of_InvM hP
    unfold MapsAgree at h0 ⊢
    rw [hpar, hlev, hvis]
    exact h0

/-- C10 witness: the invariant after expanding node 0 of the graph
`0 → 1` from the initial state, by both strategies, and after the pop
itself. -/
theorem claim_C10_witness :
    MapsAgree [(0, [1])] 0
      (bfsExpand [(0, [1])] 0 (popState 0 [] (initState 0))) ∧
    MapsAgree [(0, [1])] 0
      (dfsExpand [(0, [1])] 0 (popState 0 [] (initState 0))) ∧
    MapsAgree [(0, [1])] 0 (popState 0 [] (initState 0)) :=
  (claim_C10 [(0, [1])] 0 0).2.1 0 [] (initState 0) (InvM_init _ _) rfl

end LabSearch
